import Mathlib

/-!
# Web crawler (`exercise-web-crawler.go`): interleaving model

The goroutines of `Crawl` are embedded as a step function on an explicit state:
one step per source statement that touches shared memory (the global map
`fetched`, the channel `ch`, the `sync.WaitGroup`; two steps for the assignment
to the map, see below), interleaved by a schedule (a list of actors).  `fetcher.Fetch` is a function of the url; `time.Sleep` and
the text printed by `fmt.Printf` are not modelled (every received outcome is
recorded in `delivered`).

The map `fetched` is a bare Go map shared by the workers without a lock.  The
Go runtime guards a map with a write flag: an assignment raises the flag when
it enters the map and lowers it when it has stored the value, and a read or an
assignment that enters the map while the flag is up ends the process with
`fatal error: concurrent map read and map write` or `concurrent map writes`.
The assignment of line 55 therefore takes two steps, between which other
goroutines can move, and the state records the flag (`writing`) and the death
of the process (`fatal`).  A read is one step: the runtime does not notice a
write that starts during a read.
-/

namespace WebCrawler

/-- The three results of `Fetcher.Fetch`: `(body string, urls []string, err error)`;
`err = none` is Go's `nil` error, `some msg` an error with message `msg`. -/
structure FetchResult where
  body : String
  urls : List String
  err : Option String
deriving DecidableEq

/-- The interface `Fetcher`: its single method `Fetch(url)`. -/
abbrev Fetcher := String → FetchResult

/-- The struct `crawlResult`. -/
structure crawlResult where
  url : String
  body : String
  urls : List String
  err : Option String
deriving DecidableEq

/-- The struct `fakeResult`. -/
structure fakeResult where
  body : String
  urls : List String
deriving DecidableEq

/-- The type `fakeFetcher`, a `map[string]*fakeResult`, as an association list. -/
abbrev fakeFetcher := List (String × fakeResult)

/-- The method `fakeFetcher.Fetch` (lines 81-87), without the `time.Sleep`. -/
def fakeFetcher.Fetch (f : fakeFetcher) (url : String) : FetchResult :=
  match f.lookup url with
  | some res => ⟨res.body, res.urls, none⟩
  | none => ⟨"", [], some ("not found: " ++ url)⟩

/-- The package-level `fetcher` (lines 90-121). -/
def fetcher : fakeFetcher :=
  [ ("http://golang.org/",
      ⟨"The Go Programming Language",
       ["http://golang.org/pkg/", "http://golang.org/cmd/"]⟩),
    ("http://golang.org/pkg/",
      ⟨"Packages",
       ["http://golang.org/", "http://golang.org/cmd/",
        "http://golang.org/pkg/fmt/", "http://golang.org/pkg/os/"]⟩),
    ("http://golang.org/pkg/fmt/",
      ⟨"Package fmt", ["http://golang.org/", "http://golang.org/pkg/"]⟩),
    ("http://golang.org/pkg/os/",
      ⟨"Package os", ["http://golang.org/", "http://golang.org/pkg/"]⟩) ]

/-- Program points of `crawlWorker` (lines 45-67). -/
inductive Label where
  /-- line 49: `if depth <= 0 { return }` -/
  | depthCheck
  /-- line 52: `if fetched[url] { return }` -/
  | fetchedCheck
  /-- line 55: `fetched[url] = true`, the assignment enters the map -/
  | mark
  /-- line 55, continued: the value is stored and the assignment leaves the map -/
  | store
  /-- line 56: `body, urls, err := fetcher.Fetch(url)` -/
  | fetch
  /-- lines 57-58: `r := crawlResult{url, body, urls, err}; ch <- r` -/
  | send
  /-- line 59: `if err != nil { return }` -/
  | errCheck
  /-- line 62: `for _, u := range urls` (loop head) -/
  | range
  /-- line 63: `wg.Add(1)` -/
  | add
  /-- line 64: `go crawlWorker(u, depth-1, fetcher, ch, wg)` -/
  | spawn
  /-- line 46: the deferred `wg.Done()`, run at every `return` -/
  | deferDone
  /-- the goroutine has ended -/
  | exited
deriving DecidableEq

/-- One `crawlWorker` goroutine: its parameters `url`, `depth`, its program
point, the locals `body, urls, err` of line 56 (`none` before that line has
run), and the elements of `urls` the `range` loop has not finished with (at
`add` and `spawn` the head is the loop variable `u`). -/
structure Worker where
  url : String
  depth : Int
  pc : Label
  res : Option FetchResult
  rest : List String
deriving DecidableEq

/-- A goroutine started by `go crawlWorker(url, depth, ...)`. -/
def Worker.start (url : String) (depth : Int) : Worker :=
  ⟨url, depth, Label.depthCheck, none, []⟩

/-- Program points of `Crawl` (lines 26-43) in the calling goroutine. -/
inductive MainLabel where
  /-- line 29: `wg.Add(1)` -/
  | add
  /-- line 30: `go func() { wg.Wait(); close(ch) }()` -/
  | goCloser
  /-- line 34: `go crawlWorker(url, depth, fetcher, ch, &wg)` -/
  | goWorker
  /-- lines 36-42: `for r := range ch { ... }` -/
  | recv
  /-- `Crawl` has returned -/
  | ret
deriving DecidableEq

/-- Program points of the anonymous goroutine of lines 30-33. -/
inductive CloserLabel where
  /-- not started yet -/
  | idle
  /-- line 31: `wg.Wait()` -/
  | wait
  /-- line 32: `close(ch)` -/
  | close
  /-- the goroutine has ended -/
  | exited
deriving DecidableEq

/-- The state of the program during one `Crawl`.
`fetched` lists the keys of the global map `fetched` whose value is `true`;
`ch` is the buffer of the channel (`make(chan crawlResult, 1)`), oldest first;
`wg` is the counter of the `sync.WaitGroup`; `panicked` records a run-time panic
(send on a closed channel, close of a closed channel, negative WaitGroup counter);
`writing` is the write flag of the map `fetched` (an assignment is in
progress); `fatal` records that the runtime has ended the process on a
concurrent access to the map.
`fetchLog` (the arguments of the calls to `Fetch`, in order) and `delivered`
(the outcomes the loop of `Crawl` has received and reported, in order) are
the observations. -/
structure State where
  fetched : List String
  ch : List crawlResult
  closed : Bool
  wg : Int
  main : MainLabel
  closer : CloserLabel
  pool : List Worker
  panicked : Bool
  writing : Bool
  fatal : Bool
  fetchLog : List String
  delivered : List crawlResult
deriving DecidableEq

/-- The state when `Crawl` is entered (after lines 27-28) with the global map
holding `fetched0`. -/
def initState (fetched0 : List String) : State :=
  { fetched := fetched0, ch := [], closed := false, wg := 0, main := MainLabel.add,
    closer := CloserLabel.idle, pool := [], panicked := false, writing := false,
    fatal := false, fetchLog := [], delivered := [] }

/-- The goroutines: the caller of `Crawl`, the closing goroutine, and the
`crawlWorker` goroutines in order of creation. -/
inductive Actor where
  | main
  | closer
  | worker (i : Nat)
deriving DecidableEq

/-- Capacity of `ch` (line 27). -/
def capacity : Nat := 1

/-- The function `Crawl(url, depth, fetcher)` (lines 26-43), as one step of
the goroutine that runs it from its current program point; `none` when it is
blocked on the empty, open channel or has returned. -/
def Crawl (url : String) (depth : Int) (s : State) : Option State :=
  match s.main with
  | MainLabel.add => some { s with wg := s.wg + 1, main := MainLabel.goCloser }
  | MainLabel.goCloser => some { s with closer := CloserLabel.wait, main := MainLabel.goWorker }
  | MainLabel.goWorker =>
      some { s with pool := s.pool ++ [Worker.start url depth], main := MainLabel.recv }
  | MainLabel.recv =>
      match s.ch with
      | r :: rs => some { s with ch := rs, delivered := s.delivered ++ [r] }
      | [] => if s.closed then some { s with main := MainLabel.ret } else none
  | MainLabel.ret => none

/-- One step of the goroutine `func() { wg.Wait(); close(ch) }`. -/
def closerStep (s : State) : Option State :=
  match s.closer with
  | CloserLabel.idle => none
  | CloserLabel.wait => if s.wg = 0 then some { s with closer := CloserLabel.close } else none
  | CloserLabel.close =>
      if s.closed then some { s with panicked := true }
      else some { s with closed := true, closer := CloserLabel.exited }
  | CloserLabel.exited => none

/-- Replace worker `i` of the pool. -/
def State.setWorker (s : State) (i : Nat) (w : Worker) : State :=
  { s with pool := s.pool.set i w }

/-- The function `crawlWorker` (lines 45-67), as one step of the goroutine
`i` that runs it, whose current record is `w`, with `fetcher = f`; `none` when
it is blocked on the full channel or has ended.  The read of line 52 and the
assignment of line 55 end the process (`fatal`) when they enter the map while
another worker's assignment is in progress.  `depth - 1` is computed only
when `0 < depth`, so Go's `int` never wraps and `Int` is exact.  At `send` and
`errCheck` the locals of line 56 are set and at `spawn` the loop variable
exists (`WorkerOk`), so the `none` of those inner `match`es is never taken
(`worker_enabled`). -/
def crawlWorker (f : Fetcher) (i : Nat) (w : Worker) (s : State) : Option State :=
  match w.pc with
  | Label.depthCheck =>
      if w.depth ≤ 0 then some (s.setWorker i { w with pc := Label.deferDone })
      else some (s.setWorker i { w with pc := Label.fetchedCheck })
  | Label.fetchedCheck =>
      if s.writing then some { s with fatal := true }
      else if w.url ∈ s.fetched then some (s.setWorker i { w with pc := Label.deferDone })
      else some (s.setWorker i { w with pc := Label.mark })
  | Label.mark =>
      if s.writing then some { s with fatal := true }
      else some ({ s with writing := true }.setWorker i { w with pc := Label.store })
  | Label.store =>
      some ({ s with fetched := s.fetched.insert w.url, writing := false }.setWorker i
        { w with pc := Label.fetch })
  | Label.fetch =>
      some ({ s with fetchLog := s.fetchLog ++ [w.url] }.setWorker i
        { w with pc := Label.send, res := some (f w.url) })
  | Label.send =>
      match w.res with
      | none => none
      | some r =>
          if s.closed then some { s with panicked := true }
          else if s.ch.length < capacity then
            some ({ s with ch := s.ch ++ [crawlResult.mk w.url r.body r.urls r.err] }.setWorker i
              { w with pc := Label.errCheck })
          else none
  | Label.errCheck =>
      match w.res with
      | none => none
      | some r =>
          if r.err ≠ none then some (s.setWorker i { w with pc := Label.deferDone })
          else some (s.setWorker i { w with pc := Label.range, rest := r.urls })
  | Label.range =>
      match w.rest with
      | [] => some (s.setWorker i { w with pc := Label.deferDone })
      | _ :: _ => some (s.setWorker i { w with pc := Label.add })
  | Label.add => some ({ s with wg := s.wg + 1 }.setWorker i { w with pc := Label.spawn })
  | Label.spawn =>
      match w.rest with
      | [] => none
      | u :: tl =>
          some { s with pool := s.pool.set i { w with pc := Label.range, rest := tl }
                                ++ [Worker.start u (w.depth - 1)] }
  | Label.deferDone =>
      if s.wg - 1 < 0 then some { s with panicked := true }
      else some ({ s with wg := s.wg - 1 }.setWorker i { w with pc := Label.exited })
  | Label.exited => none

/-- One step of actor `a` in `Crawl(url, depth, f)`; `none` when the actor
cannot move (blocked, ended, not yet created), the program has panicked, or
the runtime has ended the process. -/
def step (f : Fetcher) (url : String) (depth : Int) (a : Actor) (s : State) : Option State :=
  if s.panicked ∨ s.fatal then none
  else
    match a with
    | Actor.main => Crawl url depth s
    | Actor.closer => closerStep s
    | Actor.worker i =>
        match s.pool[i]? with
        | none => none
        | some w => crawlWorker f i w s

/-- Run a schedule: the actors move in the listed order; `none` when a listed
actor cannot move. -/
def exec (f : Fetcher) (url : String) (depth : Int) : List Actor → State → Option State
  | [], s => some s
  | a :: as, s => (step f url depth a s).bind (exec f url depth as)

/-- The states `Crawl(url, depth, f)` can be in, entered with the global map
holding `fetched0`, under any interleaving. -/
def Reachable (f : Fetcher) (fetched0 : List String) (url : String) (depth : Int)
    (s : State) : Prop :=
  ∃ sched, exec f url depth sched (initState fetched0) = some s

/-- `Crawl` has returned. -/
def State.finished (s : State) : Prop := s.main = MainLabel.ret

instance (s : State) : Decidable s.finished := by unfold State.finished; infer_instance

/-! ## The transitions, one per branch of `step` -/

/-- The moves of `step`, one constructor per branch of `Crawl`,
`closerStep` and `crawlWorker`. -/
inductive Trans (f : Fetcher) (url : String) (depth : Int) : State → State → Prop where
  | mainAdd (s : State) (hp : s.panicked = false) (hm : s.main = MainLabel.add)
      (hx : s.fatal = false) :
      Trans f url depth s { s with wg := s.wg + 1, main := MainLabel.goCloser }
  | mainGoCloser (s : State) (hp : s.panicked = false) (hm : s.main = MainLabel.goCloser)
      (hx : s.fatal = false) :
      Trans f url depth s { s with closer := CloserLabel.wait, main := MainLabel.goWorker }
  | mainGoWorker (s : State) (hp : s.panicked = false) (hm : s.main = MainLabel.goWorker)
      (hx : s.fatal = false) :
      Trans f url depth s
        { s with pool := s.pool ++ [Worker.start url depth], main := MainLabel.recv }
  | mainRecv (s : State) (r : crawlResult) (rs : List crawlResult) (hp : s.panicked = false)
      (hm : s.main = MainLabel.recv) (hch : s.ch = r :: rs) (hx : s.fatal = false) :
      Trans f url depth s { s with ch := rs, delivered := s.delivered ++ [r] }
  | mainRet (s : State) (hp : s.panicked = false) (hm : s.main = MainLabel.recv)
      (hch : s.ch = []) (hcl : s.closed = true) (hx : s.fatal = false) :
      Trans f url depth s { s with main := MainLabel.ret }
  | closerWait (s : State) (hp : s.panicked = false) (hc : s.closer = CloserLabel.wait)
      (hwg : s.wg = 0) (hx : s.fatal = false) :
      Trans f url depth s { s with closer := CloserLabel.close }
  | closerPanic (s : State) (hp : s.panicked = false) (hc : s.closer = CloserLabel.close)
      (hcl : s.closed = true) (hx : s.fatal = false) :
      Trans f url depth s { s with panicked := true }
  | closerClose (s : State) (hp : s.panicked = false) (hc : s.closer = CloserLabel.close)
      (hcl : s.closed = false) (hx : s.fatal = false) :
      Trans f url depth s { s with closed := true, closer := CloserLabel.exited }
  | depthStop (s : State) (i : Nat) (w : Worker) (hp : s.panicked = false)
      (hw : s.pool[i]? = some w) (hpc : w.pc = Label.depthCheck) (hd : w.depth ≤ 0)
      (hx : s.fatal = false) :
      Trans f url depth s { s with pool := s.pool.set i { w with pc := Label.deferDone } }
  | depthGo (s : State) (i : Nat) (w : Worker) (hp : s.panicked = false)
      (hw : s.pool[i]? = some w) (hpc : w.pc = Label.depthCheck) (hd : 0 < w.depth)
      (hx : s.fatal = false) :
      Trans f url depth s { s with pool := s.pool.set i { w with pc := Label.fetchedCheck } }
  | checkFatal (s : State) (i : Nat) (w : Worker) (hp : s.panicked = false)
      (hw : s.pool[i]? = some w) (hpc : w.pc = Label.fetchedCheck) (hwr : s.writing = true)
      (hx : s.fatal = false) :
      Trans f url depth s { s with fatal := true }
  | fetchedHit (s : State) (i : Nat) (w : Worker) (hp : s.panicked = false)
      (hw : s.pool[i]? = some w) (hpc : w.pc = Label.fetchedCheck) (hf : w.url ∈ s.fetched)
      (hwr : s.writing = false) (hx : s.fatal = false) :
      Trans f url depth s { s with pool := s.pool.set i { w with pc := Label.deferDone } }
  | fetchedMiss (s : State) (i : Nat) (w : Worker) (hp : s.panicked = false)
      (hw : s.pool[i]? = some w) (hpc : w.pc = Label.fetchedCheck) (hf : w.url ∉ s.fetched)
      (hwr : s.writing = false) (hx : s.fatal = false) :
      Trans f url depth s { s with pool := s.pool.set i { w with pc := Label.mark } }
  | markFatal (s : State) (i : Nat) (w : Worker) (hp : s.panicked = false)
      (hw : s.pool[i]? = some w) (hpc : w.pc = Label.mark) (hwr : s.writing = true)
      (hx : s.fatal = false) :
      Trans f url depth s { s with fatal := true }
  | mark (s : State) (i : Nat) (w : Worker) (hp : s.panicked = false)
      (hw : s.pool[i]? = some w) (hpc : w.pc = Label.mark) (hwr : s.writing = false)
      (hx : s.fatal = false) :
      Trans f url depth s
        { s with writing := true, pool := s.pool.set i { w with pc := Label.store } }
  | store (s : State) (i : Nat) (w : Worker) (hp : s.panicked = false)
      (hw : s.pool[i]? = some w) (hpc : w.pc = Label.store) (hx : s.fatal = false) :
      Trans f url depth s
        { s with fetched := s.fetched.insert w.url, writing := false,
                 pool := s.pool.set i { w with pc := Label.fetch } }
  | fetch (s : State) (i : Nat) (w : Worker) (hp : s.panicked = false)
      (hw : s.pool[i]? = some w) (hpc : w.pc = Label.fetch) (hx : s.fatal = false) :
      Trans f url depth s
        { s with fetchLog := s.fetchLog ++ [w.url],
                 pool := s.pool.set i { w with pc := Label.send, res := some (f w.url) } }
  | sendPanic (s : State) (i : Nat) (w : Worker) (r : FetchResult) (hp : s.panicked = false)
      (hw : s.pool[i]? = some w) (hpc : w.pc = Label.send) (hr : w.res = some r)
      (hcl : s.closed = true) (hx : s.fatal = false) :
      Trans f url depth s { s with panicked := true }
  | send (s : State) (i : Nat) (w : Worker) (r : FetchResult) (hp : s.panicked = false)
      (hw : s.pool[i]? = some w) (hpc : w.pc = Label.send) (hr : w.res = some r)
      (hcl : s.closed = false) (hroom : s.ch.length < capacity) (hx : s.fatal = false) :
      Trans f url depth s
        { s with ch := s.ch ++ [crawlResult.mk w.url r.body r.urls r.err],
                 pool := s.pool.set i { w with pc := Label.errCheck } }
  | errStop (s : State) (i : Nat) (w : Worker) (r : FetchResult) (hp : s.panicked = false)
      (hw : s.pool[i]? = some w) (hpc : w.pc = Label.errCheck) (hr : w.res = some r)
      (he : r.err ≠ none) (hx : s.fatal = false) :
      Trans f url depth s { s with pool := s.pool.set i { w with pc := Label.deferDone } }
  | errGo (s : State) (i : Nat) (w : Worker) (r : FetchResult) (hp : s.panicked = false)
      (hw : s.pool[i]? = some w) (hpc : w.pc = Label.errCheck) (hr : w.res = some r)
      (he : r.err = none) (hx : s.fatal = false) :
      Trans f url depth s
        { s with pool := s.pool.set i { w with pc := Label.range, rest := r.urls } }
  | rangeEnd (s : State) (i : Nat) (w : Worker) (hp : s.panicked = false)
      (hw : s.pool[i]? = some w) (hpc : w.pc = Label.range) (hrest : w.rest = [])
      (hx : s.fatal = false) :
      Trans f url depth s { s with pool := s.pool.set i { w with pc := Label.deferDone } }
  | rangeNext (s : State) (i : Nat) (w : Worker) (u : String) (tl : List String)
      (hp : s.panicked = false) (hw : s.pool[i]? = some w) (hpc : w.pc = Label.range)
      (hrest : w.rest = u :: tl) (hx : s.fatal = false) :
      Trans f url depth s { s with pool := s.pool.set i { w with pc := Label.add } }
  | add (s : State) (i : Nat) (w : Worker) (hp : s.panicked = false)
      (hw : s.pool[i]? = some w) (hpc : w.pc = Label.add) (hx : s.fatal = false) :
      Trans f url depth s
        { s with wg := s.wg + 1, pool := s.pool.set i { w with pc := Label.spawn } }
  | spawn (s : State) (i : Nat) (w : Worker) (u : String) (tl : List String)
      (hp : s.panicked = false) (hw : s.pool[i]? = some w) (hpc : w.pc = Label.spawn)
      (hrest : w.rest = u :: tl) (hx : s.fatal = false) :
      Trans f url depth s
        { s with pool := s.pool.set i { w with pc := Label.range, rest := tl }
                          ++ [Worker.start u (w.depth - 1)] }
  | donePanic (s : State) (i : Nat) (w : Worker) (hp : s.panicked = false)
      (hw : s.pool[i]? = some w) (hpc : w.pc = Label.deferDone) (hwg : s.wg - 1 < 0)
      (hx : s.fatal = false) :
      Trans f url depth s { s with panicked := true }
  | done (s : State) (i : Nat) (w : Worker) (hp : s.panicked = false)
      (hw : s.pool[i]? = some w) (hpc : w.pc = Label.deferDone) (hwg : ¬ s.wg - 1 < 0)
      (hx : s.fatal = false) :
      Trans f url depth s
        { s with wg := s.wg - 1, pool := s.pool.set i { w with pc := Label.exited } }


/-! ## WaitGroup accounting -/

/-- Weight of a worker in the WaitGroup counter: 1 while it has not run its
`wg.Done()`, plus 1 while it stands between `wg.Add(1)` and the `go` statement. -/
def Worker.regWeight (w : Worker) : Nat :=
  (if w.pc = Label.exited then 0 else 1) + (if w.pc = Label.spawn then 1 else 0)

/-- Number of workers registered with the WaitGroup (by `wg.Add`) that have not
run `wg.Done()`: the goroutines not yet ended, plus the registrations whose
`go` statement has not run yet. -/
def State.registered (s : State) : Nat :=
  (s.pool.map Worker.regWeight).sum +
    (if s.main = MainLabel.goCloser ∨ s.main = MainLabel.goWorker then 1 else 0)

/-- Control and accounting invariant of a crawl. -/
structure InvA (s : State) : Prop where
  noPanic : s.panicked = false
  count : s.wg = s.registered
  prePool : s.main = MainLabel.add ∨ s.main = MainLabel.goCloser ∨ s.main = MainLabel.goWorker →
    s.pool = []
  closerIdle : s.closer = CloserLabel.idle ↔ (s.main = MainLabel.add ∨ s.main = MainLabel.goCloser)
  closedIff : s.closed = true ↔ s.closer = CloserLabel.exited
  closing : s.closer = CloserLabel.close ∨ s.closer = CloserLabel.exited → s.wg = 0
  cap : s.ch.length ≤ 1
  fin : s.main = MainLabel.ret → s.closed = true ∧ s.ch = []

/-! ## Locals of a worker, depth of a worker, provenance of outcomes -/

/-- The identifiers at exactly `k` links from `seed`, following only the
references of identifiers whose fetch succeeds. -/
def frontier (f : Fetcher) (seed : String) : Nat → List String
  | 0 => [seed]
  | k + 1 => (frontier f seed k).flatMap (fun v => if (f v).err = none then (f v).urls else [])

/-- The outcome a worker builds at line 57 from the results of `Fetch(url)`. -/
def outcomeOf (f : Fetcher) (url : String) : crawlResult :=
  crawlResult.mk url (f url).body (f url).urls (f url).err

/-- What holds of the locals of a worker at each program point. -/
structure WorkerOk (f : Fetcher) (w : Worker) : Prop where
  resEq : ∀ r, w.res = some r → r = f w.url
  resNone : w.pc = Label.depthCheck ∨ w.pc = Label.fetchedCheck ∨ w.pc = Label.mark ∨
    w.pc = Label.store ∨ w.pc = Label.fetch → w.res = none
  resSome : w.pc = Label.send ∨ w.pc = Label.errCheck ∨ w.pc = Label.range ∨
    w.pc = Label.add ∨ w.pc = Label.spawn → w.res ≠ none
  inLoop : w.pc = Label.range ∨ w.pc = Label.add ∨ w.pc = Label.spawn →
    (f w.url).err = none ∧ ∀ u ∈ w.rest, u ∈ (f w.url).urls
  restNe : w.pc = Label.add ∨ w.pc = Label.spawn → w.rest ≠ []
  depthPos : w.pc = Label.fetchedCheck ∨ w.pc = Label.mark ∨ w.pc = Label.store ∨
    w.pc = Label.fetch ∨ w.res ≠ none → 0 < w.depth
  restNil : w.pc ≠ Label.range ∧ w.pc ≠ Label.add ∧ w.pc ≠ Label.spawn → w.rest = []

/-- Invariant on the pool, the log of `Fetch` calls and the outcomes. -/
structure InvB (f : Fetcher) (seed : String) (maxDepth : Int) (s : State) : Prop where
  ok : ∀ w ∈ s.pool, WorkerOk f w
  chain : ∀ w ∈ s.pool, ∃ k : Nat, w.depth = maxDepth - k ∧ w.url ∈ frontier f seed k
  logged : ∀ w ∈ s.pool, w.res ≠ none → w.url ∈ s.fetchLog
  log : ∀ u ∈ s.fetchLog, ∃ k : Nat, (k : Int) + 1 ≤ maxDepth ∧ u ∈ frontier f seed k
  out : ∀ r ∈ s.ch ++ s.delivered, r.url ∈ s.fetchLog ∧ r = outcomeOf f r.url

/-! ## Variant -/

/-- Bound on the number of steps a worker started at `url` with `n` levels of
depth left can cause: its own steps, the receipt of its outcome by `Crawl`,
and the steps of all the workers it may start. -/
def cost (f : Fetcher) : Nat → String → Nat
  | 0, _ => 2
  | n + 1, u => 10 + ((f u).urls.map (fun v => 3 + cost f n v)).sum

/-- Bound on the steps caused by the iterations of the `range` loop of a worker
of depth `d` over the identifiers `l`. -/
def loopCost (f : Fetcher) (d : Int) (l : List String) : Nat :=
  (l.map (fun v => 3 + cost f (d - 1).toNat v)).sum

/-- Bound on the steps a worker can still cause from its program point. -/
def Worker.remaining (f : Fetcher) (w : Worker) : Nat :=
  match w.pc with
  | Label.depthCheck => cost f w.depth.toNat w.url
  | Label.fetchedCheck => 9 + loopCost f w.depth (f w.url).urls
  | Label.mark => 8 + loopCost f w.depth (f w.url).urls
  | Label.store => 7 + loopCost f w.depth (f w.url).urls
  | Label.fetch => 6 + loopCost f w.depth (f w.url).urls
  | Label.send =>
      match w.res with
      | none => 0
      | some r => 5 + loopCost f w.depth r.urls
  | Label.errCheck =>
      match w.res with
      | none => 0
      | some r => 3 + loopCost f w.depth r.urls
  | Label.range => 2 + loopCost f w.depth w.rest
  | Label.add => 1 + loopCost f w.depth w.rest
  | Label.spawn => loopCost f w.depth w.rest
  | Label.deferDone => 1
  | Label.exited => 0

/-- Bound on the steps `Crawl(url, depth, f)` itself can still take, the root
worker and the closing goroutine included while they are not started. -/
def mainRemaining (f : Fetcher) (url : String) (depth : Int) : MainLabel → Nat
  | MainLabel.add => 6 + cost f depth.toNat url
  | MainLabel.goCloser => 5 + cost f depth.toNat url
  | MainLabel.goWorker => 2 + cost f depth.toNat url
  | MainLabel.recv => 1
  | MainLabel.ret => 0

/-- Bound on the steps the closing goroutine can still take. -/
def closerRemaining : CloserLabel → Nat
  | CloserLabel.idle => 0
  | CloserLabel.wait => 2
  | CloserLabel.close => 1
  | CloserLabel.exited => 0

/-- Variant of the crawl: a bound on the number of steps still possible. -/
def variant (f : Fetcher) (url : String) (depth : Int) (s : State) : Nat :=
  if s.panicked ∨ s.fatal then 0
  else 1 + mainRemaining f url depth s.main + closerRemaining s.closer + s.ch.length +
    (s.pool.map (Worker.remaining f)).sum

/-- Bound on the length of every run of `Crawl(url, depth, f)`. -/
def stepBound (f : Fetcher) (url : String) (depth : Int) : Nat :=
  7 + cost f depth.toNat url


/-! ## The workers a crawl can start -/

/-- The workers `(url, depth)` started below a worker `(u, d)` when no
identifier is ever found marked, `n` levels deep: the worker itself and, if
its fetch succeeds, the trees of the identifiers it finds, at depth `d - 1`. -/
def subtree (f : Fetcher) : Nat → String → Int → List (String × Int)
  | 0, u, d => [(u, d)]
  | n + 1, u, d =>
      (u, d) :: (if (f u).err = none then (f u).urls.flatMap (fun v => subtree f n v (d - 1))
                 else [])

/-- All the workers `go crawlWorker(u, d, ...)` can lead to. -/
def spawnTree (f : Fetcher) (u : String) (d : Int) : List (String × Int) :=
  subtree f d.toNat u d

/-- The workers the `range` loop of a worker of depth `d` can lead to while
iterating over `l`. -/
def below (f : Fetcher) (d : Int) (l : List String) : List (String × Int) :=
  l.flatMap (fun v => spawnTree f v (d - 1))

/-- The workers a worker can still lead to from its program point. -/
def Worker.potential (f : Fetcher) (w : Worker) : List (String × Int) :=
  match w.pc with
  | Label.depthCheck =>
      if 0 < w.depth ∧ (f w.url).err = none then below f w.depth (f w.url).urls else []
  | Label.fetchedCheck => if (f w.url).err = none then below f w.depth (f w.url).urls else []
  | Label.mark => if (f w.url).err = none then below f w.depth (f w.url).urls else []
  | Label.store => if (f w.url).err = none then below f w.depth (f w.url).urls else []
  | Label.fetch => if (f w.url).err = none then below f w.depth (f w.url).urls else []
  | Label.send =>
      match w.res with
      | none => []
      | some r => if r.err = none then below f w.depth r.urls else []
  | Label.errCheck =>
      match w.res with
      | none => []
      | some r => if r.err = none then below f w.depth r.urls else []
  | Label.range => below f w.depth w.rest
  | Label.add => below f w.depth w.rest
  | Label.spawn => below f w.depth w.rest
  | Label.deferDone => []
  | Label.exited => []

/-- Weight, under `h`, of a worker and of the workers it can still lead to. -/
def Worker.weight (f : Fetcher) (h : String × Int → Nat) (w : Worker) : Nat :=
  h (w.url, w.depth) + ((w.potential f).map h).sum

/-- Total weight, under `h`, of the workers started so far and of those that
can still be started. -/
def State.weight (f : Fetcher) (url : String) (depth : Int) (h : String × Int → Nat)
    (s : State) : Nat :=
  (s.pool.map (Worker.weight f h)).sum +
    (if s.main = MainLabel.add ∨ s.main = MainLabel.goCloser ∨ s.main = MainLabel.goWorker
     then ((spawnTree f url depth).map h).sum else 0)


/-! ## Marks and their owners -/

/-- How the record of a worker can change in a step: parameters fixed, the
results of its fetch stay set, `fetch` followed by having results. -/
def Worker.Evolves (c c' : Worker) : Prop :=
  c'.url = c.url ∧ c'.depth = c.depth ∧ (c.res ≠ none → c'.res ≠ none) ∧
    (c.pc = Label.fetch → c'.pc = Label.fetch ∨ c'.res ≠ none) ∧
    (c.pc = Label.exited → c'.pc = Label.exited)

/-- Invariant relating the marks in `fetched` to the workers. -/
structure InvK (f : Fetcher) (fetched0 : List String) (seed : String) (maxDepth : Int)
    (s : State) : Prop where
  root : s.main = MainLabel.recv ∨ s.main = MainLabel.ret →
    ∃ w ∈ s.pool, w.url = seed ∧ w.depth = maxDepth
  marked : ∀ w ∈ s.pool, 0 < w.depth →
    w.pc ≠ Label.depthCheck ∧ w.pc ≠ Label.fetchedCheck ∧ w.pc ≠ Label.mark ∧
      w.pc ≠ Label.store → w.url ∈ s.fetched
  owner : ∀ u ∈ s.fetched, u ∈ fetched0 ∨
    ∃ w ∈ s.pool, w.url = u ∧ (w.pc = Label.fetch ∨ w.res ≠ none)
  kids : ∀ w ∈ s.pool, w.res ≠ none → (f w.url).err = none →
    w.pc ≠ Label.send ∧ w.pc ≠ Label.errCheck →
    ∀ u ∈ (f w.url).urls, u ∈ w.rest ∨ ∃ c ∈ s.pool, c.url = u ∧ c.depth = w.depth - 1


/-! ## Accounting of fetches and outcomes -/

/-- The weight `φ url` when the worker has called `Fetch(url)`, else 0. -/
def Worker.fetchedIt (φ : String → Nat) (w : Worker) : Nat :=
  if w.res ≠ none then φ w.url else 0

/-- 1 when the worker has sent the outcome `r`, else 0. -/
def Worker.sentIt (f : Fetcher) (r : crawlResult) (w : Worker) : Nat :=
  if w.res ≠ none ∧ w.pc ≠ Label.send ∧ outcomeOf f w.url = r then 1 else 0

/-- Accounting of the calls to `Fetch` and of the outcomes sent. -/
structure InvL (f : Fetcher) (s : State) : Prop where
  calls : ∀ φ : String → Nat, (s.fetchLog.map φ).sum = (s.pool.map (Worker.fetchedIt φ)).sum
  sends : ∀ r, (s.ch ++ s.delivered).count r = (s.pool.map (Worker.sentIt f r)).sum


/-! ## Observations on a run -/

/-- The identifiers of the workers of positive depth in the spawn tree of
`Crawl(seed, maxDepth, f)`, with multiplicity: the calls to `Fetch` that can
happen at all. -/
def fetchable (f : Fetcher) (seed : String) (maxDepth : Int) : List String :=
  ((spawnTree f seed maxDepth).filter (fun k => decide (0 < k.2))).map Prod.fst

/-- Number of worker goroutines started and not yet ended (their `wg.Done()`
has not run). -/
def State.unfinished (s : State) : Nat :=
  s.pool.countP (fun w => decide (w.pc ≠ Label.exited))

/-- Number of registrations made by `wg.Add(1)` whose `go` statement has not
run yet. -/
def State.pendingStarts (s : State) : Nat :=
  s.pool.countP (fun w => decide (w.pc = Label.spawn)) +
    (if s.main = MainLabel.goCloser ∨ s.main = MainLabel.goWorker then 1 else 0)

/-- The state a schedule leads to (the initial state if the schedule cannot run). -/
def stateAfter (f : Fetcher) (fetched0 : List String) (url : String) (depth : Int)
    (sched : List Actor) : State :=
  (exec f url depth sched (initState fetched0)).getD (initState fetched0)

/-! ## A crawl whose seed is already marked -/

/-- A crawl whose seed is already marked: the only worker is the root, and
it stops at the check of line 52. -/
structure Silent (seed : String) (s : State) : Prop where
  marked : seed ∈ s.fetched
  idle : s.writing = false
  pool : ∀ w ∈ s.pool, w.url = seed ∧ w.res = none ∧
    (w.pc = Label.depthCheck ∨ w.pc = Label.fetchedCheck ∨ w.pc = Label.deferDone ∨
      w.pc = Label.exited)
  log : s.fetchLog = []
  ch : s.ch = []
  delivered : s.delivered = []


/-! ## The write flag of the map -/

/-- 1 when the worker is inside the assignment of line 55, else 0. -/
def Worker.storing (w : Worker) : Nat :=
  if w.pc = Label.store then 1 else 0

/-- Invariant on the write flag: it is up exactly while one worker is inside
the assignment of line 55, and the runtime ends the process only when a
second worker exists. -/
structure InvW (s : State) : Prop where
  flag : (if s.writing then 1 else 0) = (s.pool.map Worker.storing).sum
  lone : s.fatal = true → 2 ≤ s.pool.length

/-! ## Scenarios and schedules -/

/-- A schedule written as runs: `(a, n)` stands for `n` consecutive steps of `a`. -/
def runs (l : List (Actor × Nat)) : List Actor :=
  l.flatMap (fun p => List.replicate p.2 p.1)

/-- Fetcher with a page that links twice to the same page: `A -> [B, B]`, `B -> []`. -/
def dupLinks : fakeFetcher := [("A", ⟨"a", ["B", "B"]⟩), ("B", ⟨"b", []⟩)]

/-- Fetcher `A -> [B, C]`, `B -> [C]`, `C -> [D]` (`D` is not found). -/
def diamond : fakeFetcher :=
  [("A", ⟨"a", ["B", "C"]⟩), ("B", ⟨"b", ["C"]⟩), ("C", ⟨"c", ["D"]⟩)]

/-- Fetcher `A -> [B, C]`, `B -> [A]`, `C -> []`. -/
def abc : fakeFetcher := [("A", ⟨"a", ["B", "C"]⟩), ("B", ⟨"b", ["A"]⟩), ("C", ⟨"c", []⟩)]

/-- Fetcher `A -> [B]`, `B -> [A]`. -/
def cycleAB : fakeFetcher := [("A", ⟨"a", ["B"]⟩), ("B", ⟨"b", ["A"]⟩)]

/-- A `Fetcher` that fails with a non-empty body and a non-empty list. -/
def noisyFetcher : Fetcher := fun _ => ⟨"half a page", ["X"], some "timeout"⟩

/-- Schedule of `Crawl("http://golang.org/", 4, fetcher)`, the call made by
`main`: worker 2 (`.../cmd/`, depth 3) reads `fetched[url]` before worker 4
(`.../cmd/`, depth 2) writes it, and both call `Fetch` ; no two accesses to
the map overlap. -/
def schedRace : List Actor :=
  runs [(Actor.main, 3), (Actor.worker 0, 6), (Actor.main, 1), (Actor.worker 0, 7),
        (Actor.worker 2, 2), (Actor.worker 1, 6), (Actor.main, 1), (Actor.worker 1, 7),
        (Actor.worker 4, 5), (Actor.worker 2, 3)]

/-- Complete schedule of `Crawl("A", 2, dupLinks)` in which workers 1 and 2
(both for `B`) read `fetched["B"]` before either writes it. -/
def schedDup : List Actor :=
  runs [(Actor.main, 3), (Actor.worker 0, 6), (Actor.main, 1), (Actor.worker 0, 7),
        (Actor.worker 1, 2), (Actor.worker 2, 2), (Actor.worker 0, 2), (Actor.worker 1, 7),
        (Actor.worker 2, 3), (Actor.main, 1), (Actor.worker 2, 4), (Actor.main, 1),
        (Actor.closer, 2), (Actor.main, 1)]

/-- Complete schedule of `Crawl("A", 3, diamond)`: the worker for `C` started
by `A` (depth 2) claims `C` first. -/
def schedDeep : List Actor :=
  runs [(Actor.main, 3), (Actor.worker 0, 15), (Actor.worker 1, 5), (Actor.worker 2, 5),
        (Actor.main, 1), (Actor.worker 1, 7), (Actor.worker 3, 3), (Actor.main, 1),
        (Actor.worker 2, 7), (Actor.worker 4, 5), (Actor.main, 1), (Actor.worker 4, 3),
        (Actor.main, 1), (Actor.closer, 2), (Actor.main, 1)]

/-- Complete schedule of `Crawl("A", 3, diamond)`: the worker for `C` started
by `B` (depth 1) claims `C` first. -/
def schedShallow : List Actor :=
  runs [(Actor.main, 3), (Actor.worker 0, 15), (Actor.main, 1), (Actor.worker 1, 12),
        (Actor.worker 3, 4), (Actor.worker 2, 3), (Actor.worker 3, 1), (Actor.main, 1),
        (Actor.worker 3, 7), (Actor.worker 4, 2), (Actor.main, 1), (Actor.closer, 2),
        (Actor.main, 1)]

/-- Complete schedule of `Crawl("http://golang.org/", 4, fetcher)`, the call made by `main`. -/
def schedMain : List Actor :=
  runs [(Actor.main, 3), (Actor.worker 0, 15), (Actor.worker 1, 5), (Actor.worker 2, 5),
        (Actor.main, 1), (Actor.worker 1, 16), (Actor.worker 3, 3), (Actor.worker 4, 3),
        (Actor.worker 5, 5), (Actor.worker 6, 5), (Actor.main, 1), (Actor.worker 2, 3),
        (Actor.main, 1), (Actor.worker 5, 10), (Actor.worker 7, 3), (Actor.worker 8, 3),
        (Actor.main, 1), (Actor.worker 6, 10), (Actor.worker 9, 3), (Actor.worker 10, 3),
        (Actor.main, 1), (Actor.closer, 2), (Actor.main, 1)]

/-- Complete schedule of `Crawl("A", 2, abc)`. -/
def schedAbc : List Actor :=
  runs [(Actor.main, 3), (Actor.worker 0, 15), (Actor.worker 1, 5), (Actor.worker 2, 5),
        (Actor.main, 1), (Actor.worker 1, 7), (Actor.worker 3, 2), (Actor.main, 1),
        (Actor.worker 2, 4), (Actor.main, 1), (Actor.closer, 2), (Actor.main, 1)]

/-- Complete schedule of `Crawl("A", 1, cycleAB)`. -/
def schedCycle : List Actor :=
  runs [(Actor.main, 3), (Actor.worker 0, 12), (Actor.worker 1, 2), (Actor.main, 1),
        (Actor.closer, 2), (Actor.main, 1)]

/-- Complete schedule of a crawl whose seed fails (`noisyFetcher`, or an
identifier `fetcher` does not know). -/
def schedFail : List Actor :=
  runs [(Actor.main, 3), (Actor.worker 0, 8), (Actor.main, 1), (Actor.closer, 2),
        (Actor.main, 1)]

/-- Complete schedule of `Crawl("http://golang.org/", 1, fetcher)` from an empty `fetched`. -/
def schedOnce : List Actor :=
  runs [(Actor.main, 3), (Actor.worker 0, 15), (Actor.worker 1, 2), (Actor.worker 2, 2),
        (Actor.main, 1), (Actor.closer, 2), (Actor.main, 1)]

/-- Complete schedule of `Crawl("http://golang.org/", 1, fetcher)` when the seed is
already marked in `fetched`. -/
def schedAgain : List Actor :=
  runs [(Actor.main, 3), (Actor.worker 0, 3), (Actor.closer, 2), (Actor.main, 1)]

/-- Schedule of `Crawl("http://golang.org/", 4, fetcher)`, the call made by `main`,
and equally of `Crawl("A", 2, abc)`: the two workers started by the root both
pass line 52, worker 1 enters the assignment of line 55, and worker 2 enters
it while worker 1 has not left. -/
def schedAbort : List Actor :=
  runs [(Actor.main, 3), (Actor.worker 0, 6), (Actor.main, 1), (Actor.worker 0, 7),
        (Actor.worker 1, 2), (Actor.worker 2, 2), (Actor.worker 1, 1), (Actor.worker 2, 1)]

/-! ## Every step is a transition; induction over the reachable states -/

theorem step_trans (f : Fetcher) (url : String) (depth : Int) (a : Actor) (s s' : State)
    (hs : step f url depth a s = some s') : Trans f url depth s s' := by
  unfold step at hs
  split at hs
  · simp at hs
  · rename_i hpx
    have hp : s.panicked = false := by
      cases h : s.panicked with
      | false => rfl
      | true => exact absurd (Or.inl h) hpx
    have hx : s.fatal = false := by
      cases h : s.fatal with
      | false => rfl
      | true => exact absurd (Or.inr h) hpx
    cases a with
    | main =>
      simp only [Crawl] at hs
      split at hs
      · simp only [Option.some.injEq] at hs; subst hs; exact Trans.mainAdd s hp ‹_› hx
      · simp only [Option.some.injEq] at hs; subst hs; exact Trans.mainGoCloser s hp ‹_› hx
      · simp only [Option.some.injEq] at hs; subst hs; exact Trans.mainGoWorker s hp ‹_› hx
      · split at hs
        · simp only [Option.some.injEq] at hs; subst hs
          exact Trans.mainRecv s _ _ hp ‹_› ‹_› hx
        · split at hs
          · simp only [Option.some.injEq] at hs; subst hs
            exact Trans.mainRet s hp ‹_› ‹_› ‹_› hx
          · simp at hs
      · simp at hs
    | closer =>
      simp only [closerStep] at hs
      split at hs
      · simp at hs
      · split at hs
        · simp only [Option.some.injEq] at hs; subst hs; exact Trans.closerWait s hp ‹_› ‹_› hx
        · simp at hs
      · split at hs
        · simp only [Option.some.injEq] at hs; subst hs; exact Trans.closerPanic s hp ‹_› ‹_› hx
        · simp only [Option.some.injEq] at hs; subst hs
          exact Trans.closerClose s hp ‹_› (by simpa using ‹¬ s.closed = true›) hx
      · simp at hs
    | worker i =>
      simp only at hs
      split at hs
      · simp at hs
      · rename_i w hw
        simp only [crawlWorker, State.setWorker] at hs
        split at hs
        · split at hs
          · simp only [Option.some.injEq] at hs; subst hs
            exact Trans.depthStop s i w hp hw ‹_› ‹_› hx
          · simp only [Option.some.injEq] at hs; subst hs
            exact Trans.depthGo s i w hp hw ‹_› (by omega) hx
        · split at hs
          · simp only [Option.some.injEq] at hs; subst hs
            exact Trans.checkFatal s i w hp hw ‹_› ‹_› hx
          · have hwr : s.writing = false := by simpa using ‹¬ s.writing = true›
            split at hs
            · simp only [Option.some.injEq] at hs; subst hs
              exact Trans.fetchedHit s i w hp hw ‹_› ‹_› hwr hx
            · simp only [Option.some.injEq] at hs; subst hs
              exact Trans.fetchedMiss s i w hp hw ‹_› ‹_› hwr hx
        · split at hs
          · simp only [Option.some.injEq] at hs; subst hs
            exact Trans.markFatal s i w hp hw ‹_› ‹_› hx
          · have hwr : s.writing = false := by simpa using ‹¬ s.writing = true›
            simp only [Option.some.injEq] at hs; subst hs
            exact Trans.mark s i w hp hw ‹_› hwr hx
        · simp only [Option.some.injEq] at hs; subst hs; exact Trans.store s i w hp hw ‹_› hx
        · simp only [Option.some.injEq] at hs; subst hs; exact Trans.fetch s i w hp hw ‹_› hx
        · split at hs
          · simp at hs
          · split at hs
            · simp only [Option.some.injEq] at hs; subst hs
              exact Trans.sendPanic s i w _ hp hw ‹_› ‹_› ‹_› hx
            · split at hs
              · simp only [Option.some.injEq] at hs; subst hs
                exact Trans.send s i w _ hp hw ‹_› ‹_› (by simpa using ‹¬ s.closed = true›)
                  ‹_› hx
              · simp at hs
        · split at hs
          · simp at hs
          · split at hs
            · simp only [Option.some.injEq] at hs; subst hs
              exact Trans.errStop s i w _ hp hw ‹_› ‹_› ‹_› hx
            · simp only [Option.some.injEq] at hs; subst hs
              exact Trans.errGo s i w _ hp hw ‹_› ‹_› (by simpa using ‹¬ _ ≠ none›) hx
        · split at hs
          · simp only [Option.some.injEq] at hs; subst hs
            exact Trans.rangeEnd s i w hp hw ‹_› ‹_› hx
          · simp only [Option.some.injEq] at hs; subst hs
            exact Trans.rangeNext s i w _ _ hp hw ‹_› ‹_› hx
        · simp only [Option.some.injEq] at hs; subst hs; exact Trans.add s i w hp hw ‹_› hx
        · split at hs
          · simp at hs
          · simp only [Option.some.injEq] at hs; subst hs
            exact Trans.spawn s i w _ _ hp hw ‹_› ‹_› hx
        · split at hs
          · simp only [Option.some.injEq] at hs; subst hs
            exact Trans.donePanic s i w hp hw ‹_› ‹_› hx
          · simp only [Option.some.injEq] at hs; subst hs
            exact Trans.done s i w hp hw ‹_› ‹_› hx
        · simp at hs

/-- Induction over the reachable states. -/
theorem Reachable.induct (f : Fetcher) (fetched0 : List String) (url : String) (depth : Int)
    (P : State → Prop) (h0 : P (initState fetched0))
    (hstep : ∀ s s', P s → Trans f url depth s s' → P s')
    (s : State) (hr : Reachable f fetched0 url depth s) : P s := by
  obtain ⟨sched, hs⟩ := hr
  have key : ∀ (sched : List Actor) (s0 : State), P s0 →
      exec f url depth sched s0 = some s → P s := by
    intro sched
    induction sched with
    | nil => intro s0 hp he; simp [exec] at he; subst he; exact hp
    | cons a as ih =>
      intro s0 hp he
      simp only [exec] at he
      cases hst : step f url depth a s0 with
      | none => simp [hst] at he
      | some s1 =>
        simp [hst] at he
        exact ih s1 (hstep s0 s1 hp (step_trans f url depth a s0 s1 hst)) he
  exact key sched _ h0 hs

/-! ## Bookkeeping lemmas on the pool, accounting invariant -/

theorem sum_map_set (g : Worker → Nat) (w' : Worker) :
    ∀ (l : List Worker) (i : Nat) (w : Worker), l[i]? = some w →
      ((l.set i w').map g).sum + g w = (l.map g).sum + g w' := by
  intro l
  induction l with
  | nil => intro i w h; simp at h
  | cons a l ih =>
    intro i w h
    cases i with
    | zero =>
      simp at h
      subst h
      simp
      omega
    | succ i =>
      simp at h
      have := ih i w h
      simp only [List.set_cons_succ, List.map_cons, List.sum_cons]
      omega

theorem mem_of_getElem_some {α : Type} (l : List α) (i : Nat) (w : α)
    (h : l[i]? = some w) : w ∈ l := by
  obtain ⟨hlt, rfl⟩ := List.getElem?_eq_some.1 h
  exact List.getElem_mem hlt

theorem le_sum_map_of_getElem (g : Worker → Nat) (l : List Worker) (i : Nat) (w : Worker)
    (h : l[i]? = some w) : g w ≤ (l.map g).sum :=
  List.single_le_sum (by simp) _ (List.mem_map_of_mem g (mem_of_getElem_some l i w h))

theorem sum_map_set_eq (g : Worker → Nat) (l : List Worker) (i : Nat) (w w' : Worker)
    (h : l[i]? = some w) :
    ((l.set i w').map g).sum = (l.map g).sum - g w + g w' := by
  have h1 := sum_map_set g w' l i w h
  have h2 := le_sum_map_of_getElem g l i w h
  omega

theorem count_step (f : Fetcher) (url : String) (depth : Int) (s s' : State)
    (h2 : s.wg = s.registered) (ht : Trans f url depth s s') : s'.wg = s'.registered := by
  unfold State.registered at h2 ⊢
  have hle := fun i w => le_sum_map_of_getElem Worker.regWeight s.pool i w
  cases ht <;> dsimp only <;> (try exact h2) <;>
    (try simp only [List.map_append, List.sum_append, List.map_cons, List.map_nil, List.sum_cons,
         List.sum_nil, Worker.start] at h2 ⊢) <;>
    (try rw [sum_map_set_eq Worker.regWeight _ _ _ _ ‹_›]) <;>
    (try have hle1 := hle _ _ ‹_›) <;>
    (try simp only [Worker.regWeight, reduceCtorEq, if_true, if_false, or_false, false_or, or_true,
         true_or, or_self, *] at hle1) <;>
    (try simp only [Worker.regWeight, reduceCtorEq, if_true, if_false, or_false, false_or, or_true,
         true_or, or_self, *] at h2) <;>
    (try simp only [Worker.regWeight, reduceCtorEq, if_true, if_false, or_false, false_or, or_true,
         true_or, or_self, *]) <;>
    omega

theorem invA_init (fetched0 : List String) : InvA (initState fetched0) := by
  constructor <;> simp [initState, State.registered]

theorem wg_pos_of_live (s : State) (h : s.wg = s.registered) (i : Nat) (w : Worker)
    (hw : s.pool[i]? = some w) (hpc : w.pc ≠ Label.exited) : 1 ≤ s.wg := by
  have := le_sum_map_of_getElem Worker.regWeight s.pool i w hw
  unfold State.registered at h
  simp only [Worker.regWeight, hpc, if_false] at this
  omega

theorem invA_step (f : Fetcher) (url : String) (depth : Int) (s s' : State)
    (h : InvA s) (ht : Trans f url depth s s') : InvA s' := by
  have hcount := count_step f url depth s s' h.count ht
  have hpos := wg_pos_of_live s h.count
  obtain ⟨h1, h2, h3, h4, h5, h6, h7, h8⟩ := h
  clear h2
  cases ht <;> (try have hpos1 := hpos _ _ ‹_› (by simp [*])) <;> clear hpos <;>
    (try have hnc : ¬ (s.closer = CloserLabel.close ∨ s.closer = CloserLabel.exited) :=
      fun hc => by have := h6 hc; omega) <;>
    (try have hpre : ¬ (s.main = MainLabel.add ∨ s.main = MainLabel.goCloser ∨
        s.main = MainLabel.goWorker) :=
      fun hm => by have h0 := h3 hm; have h9 := ‹s.pool[_]? = some _›; simp [h0] at h9) <;>
    refine ⟨?_, hcount, ?_, ?_, ?_, ?_, ?_, ?_⟩ <;> clear hcount <;> dsimp only <;>
    simp_all [capacity] <;> omega


/-! ## Invariant on locals, depths and outcomes -/

theorem forall_mem_set {α : Type} (P : α → Prop) (l : List α) (i : Nat) (a : α)
    (hl : ∀ x ∈ l, P x) (ha : P a) : ∀ x ∈ l.set i a, P x := by
  intro x hx
  rcases List.mem_or_eq_of_mem_set hx with h | h
  · exact hl x h
  · exact h ▸ ha

theorem workerOk_start (f : Fetcher) (u : String) (d : Int) : WorkerOk f (Worker.start u d) := by
  constructor <;> simp [Worker.start]

theorem workerOk_step (f : Fetcher) (url : String) (depth : Int) (s s' : State)
    (h : ∀ w ∈ s.pool, WorkerOk f w) (ht : Trans f url depth s s') :
    ∀ w ∈ s'.pool, WorkerOk f w := by
  cases ht <;> dsimp only <;> (try exact h) <;>
    (try simp only [List.forall_mem_append, List.mem_singleton, forall_eq]) <;>
    (try refine ⟨?_, workerOk_start f _ _⟩) <;>
    (try
      (apply forall_mem_set _ _ _ _ h
       have hm := mem_of_getElem_some _ _ _ ‹_›
       obtain ⟨a1, a2, a3, a4, a5, a6, a7⟩ := h _ hm
       constructor <;> dsimp only <;> simp_all <;> assumption)) <;>
    exact h
theorem frontier_succ_mem (f : Fetcher) (seed : String) (k : Nat) (v u : String)
    (hv : v ∈ frontier f seed k) (he : (f v).err = none) (hu : u ∈ (f v).urls) :
    u ∈ frontier f seed (k + 1) := by
  simp only [frontier, List.mem_flatMap]
  exact ⟨v, hv, by simpa [he] using hu⟩

theorem chain_step (f : Fetcher) (seed : String) (maxDepth : Int) (s s' : State)
    (hok : ∀ w ∈ s.pool, WorkerOk f w)
    (h : ∀ w ∈ s.pool, ∃ k : Nat, w.depth = maxDepth - k ∧ w.url ∈ frontier f seed k)
    (ht : Trans f seed maxDepth s s') :
    ∀ w ∈ s'.pool, ∃ k : Nat, w.depth = maxDepth - k ∧ w.url ∈ frontier f seed k := by
  cases ht <;> dsimp only <;> (try exact h) <;>
    (try simp only [List.forall_mem_append, List.mem_singleton, forall_eq])
  case mainGoWorker => exact ⟨h, 0, by simp [Worker.start], by simp [Worker.start, frontier]⟩
  case spawn i w u tl hp hw hpc hrest hx =>
    have hm := mem_of_getElem_some _ _ _ hw
    obtain ⟨k, hk1, hk2⟩ := h w hm
    have hin := (hok w hm).inLoop (Or.inr (Or.inr hpc))
    refine ⟨forall_mem_set _ _ _ _ h ⟨k, hk1, hk2⟩, k + 1, ?_, ?_⟩
    · simp only [Worker.start]; push_cast; omega
    · exact frontier_succ_mem f seed k w.url u hk2 hin.1 (hin.2 u (by simp [hrest]))
  all_goals
    have hold := h _ (mem_of_getElem_some _ _ _ ‹s.pool[_]? = some _›)
    exact forall_mem_set _ _ _ _ h hold

theorem logged_step (f : Fetcher) (seed : String) (maxDepth : Int) (s s' : State)
    (h : ∀ w ∈ s.pool, w.res ≠ none → w.url ∈ s.fetchLog)
    (ht : Trans f seed maxDepth s s') :
    ∀ w ∈ s'.pool, w.res ≠ none → w.url ∈ s'.fetchLog := by
  cases ht <;> dsimp only <;> (try exact h) <;>
    (try simp only [List.forall_mem_append, List.mem_singleton, forall_eq])
  case mainGoWorker => exact ⟨h, by simp [Worker.start]⟩
  case spawn i w u tl hp hw hpc hrest hx =>
    have hold := h _ (mem_of_getElem_some _ _ _ hw)
    exact ⟨forall_mem_set _ _ _ _ h hold, by simp [Worker.start]⟩
  case fetch i w hp hw hpc hx =>
    apply forall_mem_set
    · intro x hx hr
      exact List.mem_append_left _ (h x hx hr)
    · intro _; simp
  all_goals
    have hold := h _ (mem_of_getElem_some _ _ _ ‹s.pool[_]? = some _›)
    exact forall_mem_set _ _ _ _ h hold

theorem log_step (f : Fetcher) (seed : String) (maxDepth : Int) (s s' : State)
    (hok : ∀ w ∈ s.pool, WorkerOk f w)
    (hch : ∀ w ∈ s.pool, ∃ k : Nat, w.depth = maxDepth - k ∧ w.url ∈ frontier f seed k)
    (h : ∀ u ∈ s.fetchLog, ∃ k : Nat, (k : Int) + 1 ≤ maxDepth ∧ u ∈ frontier f seed k)
    (ht : Trans f seed maxDepth s s') :
    ∀ u ∈ s'.fetchLog, ∃ k : Nat, (k : Int) + 1 ≤ maxDepth ∧ u ∈ frontier f seed k := by
  cases ht <;> dsimp only <;> (try exact h)
  case fetch i w hp hw hpc hx =>
    have hm := mem_of_getElem_some _ _ _ hw
    obtain ⟨k, hk1, hk2⟩ := hch w hm
    have hd := (hok w hm).depthPos (Or.inr (Or.inr (Or.inr (Or.inl hpc))))
    simp only [List.forall_mem_append, List.mem_singleton, forall_eq]
    exact ⟨h, k, by omega, hk2⟩

theorem out_step (f : Fetcher) (seed : String) (maxDepth : Int) (s s' : State)
    (hok : ∀ w ∈ s.pool, WorkerOk f w)
    (hlg : ∀ w ∈ s.pool, w.res ≠ none → w.url ∈ s.fetchLog)
    (h : ∀ r ∈ s.ch ++ s.delivered, r.url ∈ s.fetchLog ∧ r = outcomeOf f r.url)
    (ht : Trans f seed maxDepth s s') :
    ∀ r ∈ s'.ch ++ s'.delivered, r.url ∈ s'.fetchLog ∧ r = outcomeOf f r.url := by
  cases ht <;> dsimp only <;> (try exact h)
  case mainRecv r rs hp hm hch hx =>
    intro x hx
    apply h
    simp only [hch, List.mem_append, List.mem_cons, List.mem_singleton] at hx ⊢
    tauto
  case fetch i w hp hw hpc hx =>
    intro x hx
    exact ⟨List.mem_append_left _ (h x hx).1, (h x hx).2⟩
  case send i w r hp hw hpc hr hcl hroom hx =>
    have hm := mem_of_getElem_some _ _ _ hw
    have hreq := (hok w hm).resEq r hr
    intro x hx
    simp only [List.mem_append, List.mem_singleton] at hx
    rcases hx with (hx | hx) | hx
    · exact h x (List.mem_append_left _ hx)
    · subst hx
      exact ⟨hlg w hm (by simp [hr]), by simp [outcomeOf, hreq]⟩
    · exact h x (List.mem_append_right _ hx)

theorem invB_init (f : Fetcher) (seed : String) (maxDepth : Int) (fetched0 : List String) :
    InvB f seed maxDepth (initState fetched0) := by
  constructor <;> simp [initState]

theorem invB_step (f : Fetcher) (seed : String) (maxDepth : Int) (s s' : State)
    (h : InvB f seed maxDepth s) (ht : Trans f seed maxDepth s s') : InvB f seed maxDepth s' :=
  ⟨workerOk_step f seed maxDepth s s' h.ok ht,
   chain_step f seed maxDepth s s' h.ok h.chain ht,
   logged_step f seed maxDepth s s' h.logged ht,
   log_step f seed maxDepth s s' h.ok h.chain h.log ht,
   out_step f seed maxDepth s s' h.ok h.logged h.out ht⟩

theorem reachable_invA (f : Fetcher) (fetched0 : List String) (url : String) (depth : Int)
    (s : State) (hr : Reachable f fetched0 url depth s) : InvA s :=
  Reachable.induct f fetched0 url depth InvA (invA_init fetched0)
    (fun s s' h ht => invA_step f url depth s s' h ht) s hr

theorem reachable_invB (f : Fetcher) (fetched0 : List String) (url : String) (depth : Int)
    (s : State) (hr : Reachable f fetched0 url depth s) : InvB f url depth s :=
  Reachable.induct f fetched0 url depth (InvB f url depth) (invB_init f url depth fetched0)
    (fun s s' h ht => invB_step f url depth s s' h ht) s hr

/-! ## Every step decreases the variant -/

theorem loopCost_cons (f : Fetcher) (d : Int) (u : String) (tl : List String) :
    loopCost f d (u :: tl) = 3 + cost f (d - 1).toNat u + loopCost f d tl := by
  simp [loopCost]

theorem loopCost_nil (f : Fetcher) (d : Int) : loopCost f d [] = 0 := rfl

theorem cost_pos (f : Fetcher) (d : Int) (u : String) (hd : 0 < d) :
    cost f d.toNat u = 10 + loopCost f d (f u).urls := by
  have h : d.toNat = (d - 1).toNat + 1 := by omega
  rw [h, cost, loopCost]

theorem cost_nonpos (f : Fetcher) (d : Int) (u : String) (hd : d ≤ 0) :
    cost f d.toNat u = 2 := by
  have h : d.toNat = 0 := by omega
  rw [h, cost]

theorem variant_step (f : Fetcher) (url : String) (depth : Int) (s s' : State)
    (ht : Trans f url depth s s') : variant f url depth s' < variant f url depth s := by
  unfold variant
  have hle := fun i w => le_sum_map_of_getElem (Worker.remaining f) s.pool i w
  cases ht <;> dsimp only <;>
    (try simp only [List.map_append, List.sum_append, List.map_cons, List.map_nil, List.sum_cons,
         List.sum_nil, Worker.start]) <;>
    (try rw [sum_map_set_eq (Worker.remaining f) _ _ _ _ ‹_›]) <;>
    (try have hle1 := hle _ _ ‹_›) <;>
    (try simp only [Worker.remaining, mainRemaining, closerRemaining, loopCost_cons, loopCost_nil,
         List.length_cons, List.length_append, List.length_nil, List.length_singleton,
         Bool.false_eq_true, eq_self, or_self, or_false, false_or, or_true, true_or,
         if_true, if_false, *] at hle1) <;>
    (try simp only [Worker.remaining, mainRemaining, closerRemaining, loopCost_cons, loopCost_nil,
         List.length_cons, List.length_append, List.length_nil, List.length_singleton,
         Bool.false_eq_true, eq_self, or_self, or_false, false_or, or_true, true_or,
         if_true, if_false, *]) <;>
    (try omega)
  case depthStop i w hp hw hpc hd hx =>
    rw [cost_nonpos f _ _ hd] at hle1 ⊢
    omega
  case depthGo i w hp hw hpc hd hx =>
    rw [cost_pos f _ _ hd] at hle1 ⊢
    omega

theorem exec_variant (f : Fetcher) (url : String) (depth : Int) :
    ∀ (sched : List Actor) (s s' : State), exec f url depth sched s = some s' →
      sched.length + variant f url depth s' ≤ variant f url depth s := by
  intro sched
  induction sched with
  | nil => intro s s' h; simp [exec] at h; subst h; simp
  | cons a as ih =>
    intro s s' h
    simp only [exec] at h
    cases hst : step f url depth a s with
    | none => simp [hst] at h
    | some s1 =>
      simp [hst] at h
      have h1 := ih s1 s' h
      have h2 := variant_step f url depth s s1 (step_trans f url depth a s s1 hst)
      simp only [List.length_cons]
      omega

theorem variant_init (f : Fetcher) (url : String) (depth : Int) (fetched0 : List String) :
    variant f url depth (initState fetched0) = stepBound f url depth := by
  simp [variant, initState, mainRemaining, closerRemaining, stepBound]
  omega

/-! ## Deadlock freedom -/

theorem regSum_zero (l : List Worker) (h : ∀ w ∈ l, w.pc = Label.exited) :
    (l.map Worker.regWeight).sum = 0 := by
  induction l with
  | nil => rfl
  | cons a l ih =>
    have ha := h a (by simp)
    have hl := ih (fun w hw => h w (by simp [hw]))
    simp [Worker.regWeight, ha, hl]

theorem worker_enabled (f : Fetcher) (s : State) (i : Nat) (w : Worker)
    (hok : WorkerOk f w) (hpc : w.pc ≠ Label.exited) (hch : s.ch = []) :
    (crawlWorker f i w s).isSome = true := by
  unfold crawlWorker
  cases h : w.pc with
  | depthCheck => dsimp only; split <;> rfl
  | fetchedCheck =>
    dsimp only
    split
    · rfl
    · split <;> rfl
  | mark => dsimp only; split <;> rfl
  | store => rfl
  | fetch => rfl
  | send =>
    dsimp only
    cases hr : w.res with
    | none => exact absurd hr (hok.resSome (Or.inl h))
    | some r =>
      dsimp only
      split
      · rfl
      · simp [hch, capacity]
  | errCheck =>
    dsimp only
    cases hr : w.res with
    | none => exact absurd hr (hok.resSome (Or.inr (Or.inl h)))
    | some r => dsimp only; split <;> rfl
  | range => dsimp only; split <;> rfl
  | add => rfl
  | spawn =>
    dsimp only
    cases hr : w.rest with
    | nil => exact absurd hr (hok.restNe (Or.inr h))
    | cons u tl => rfl
  | deferDone => dsimp only; split <;> rfl
  | exited => exact absurd h hpc

theorem progress (f : Fetcher) (url : String) (depth : Int) (s : State)
    (hA : InvA s) (hok : ∀ w ∈ s.pool, WorkerOk f w) (hx : s.fatal = false)
    (hm : s.main ≠ MainLabel.ret) :
    ∃ a, (step f url depth a s).isSome = true := by
  obtain ⟨h1, h2, h3, h4, h5, h6, h7, h8⟩ := hA
  by_cases hrecv : s.main = MainLabel.recv
  · cases hch : s.ch with
    | cons r rs =>
      exact ⟨Actor.main, by simp [step, h1, hx, Crawl, hrecv, hch]⟩
    | nil =>
      cases hcl : s.closed with
      | true => exact ⟨Actor.main, by simp [step, h1, hx, Crawl, hrecv, hch, hcl]⟩
      | false =>
        by_cases hall : ∀ w ∈ s.pool, w.pc = Label.exited
        · have hz := regSum_zero s.pool hall
          have hwg : s.wg = 0 := by
            rw [h2]; unfold State.registered; simp [hz, hrecv]
          have hidle : s.closer ≠ CloserLabel.idle := by
            intro hc; have := h4.1 hc; simp [hrecv] at this
          have hex : s.closer ≠ CloserLabel.exited := by
            intro hc; have := h5.2 hc; simp [hcl] at this
          cases hc : s.closer with
          | idle => exact absurd hc hidle
          | exited => exact absurd hc hex
          | wait => exact ⟨Actor.closer, by simp [step, h1, hx, closerStep, hc, hwg]⟩
          | close => exact ⟨Actor.closer, by simp [step, h1, hx, closerStep, hc, hcl]⟩
        · push_neg at hall
          obtain ⟨w, hw, hpc⟩ := hall
          obtain ⟨i, hi, hget⟩ := List.getElem_of_mem hw
          have hget2 : s.pool[i]? = some w := by
            rw [List.getElem?_eq_getElem hi, hget]
          have hs' := worker_enabled f s i w (hok w hw) hpc hch
          exact ⟨Actor.worker i, by simp [step, h1, hx, hget2, hs']⟩
  · cases hmm : s.main with
    | add => exact ⟨Actor.main, by simp [step, h1, hx, Crawl, hmm]⟩
    | goCloser => exact ⟨Actor.main, by simp [step, h1, hx, Crawl, hmm]⟩
    | goWorker => exact ⟨Actor.main, by simp [step, h1, hx, Crawl, hmm]⟩
    | recv => exact absurd hmm hrecv
    | ret => exact absurd hmm hm

/-! ## Started workers stay within the spawn tree -/

theorem spawnTree_pos (f : Fetcher) (u : String) (d : Int) (hd : 0 < d) :
    spawnTree f u d = (u, d) :: (if (f u).err = none then below f d (f u).urls else []) := by
  have h : d.toNat = (d - 1).toNat + 1 := by omega
  unfold spawnTree
  rw [h, subtree]
  rfl

theorem spawnTree_nonpos (f : Fetcher) (u : String) (d : Int) (hd : d ≤ 0) :
    spawnTree f u d = [(u, d)] := by
  have h : d.toNat = 0 := by omega
  unfold spawnTree
  rw [h, subtree]

theorem below_cons (f : Fetcher) (d : Int) (u : String) (tl : List String) :
    below f d (u :: tl) = spawnTree f u (d - 1) ++ below f d tl := by
  simp [below]

theorem below_nil (f : Fetcher) (d : Int) : below f d [] = [] := rfl

theorem potential_start (f : Fetcher) (u : String) (d : Int) (h : String × Int → Nat) :
    Worker.weight f h (Worker.start u d) = ((spawnTree f u d).map h).sum := by
  unfold Worker.weight
  by_cases hd : 0 < d
  · rw [spawnTree_pos f u d hd]
    by_cases he : (f u).err = none <;> simp [Worker.potential, Worker.start, hd, he]
  · rw [spawnTree_nonpos f u d (by omega)]
    simp [Worker.potential, Worker.start, hd]

theorem weight_step (f : Fetcher) (url : String) (depth : Int) (h : String × Int → Nat)
    (s s' : State) (hB : ∀ w ∈ s.pool, WorkerOk f w) (ht : Trans f url depth s s') :
    s'.weight f url depth h ≤ s.weight f url depth h := by
  unfold State.weight
  have hle := fun i w => le_sum_map_of_getElem (Worker.weight f h) s.pool i w
  cases ht <;> dsimp only <;>
    (try simp only [List.map_append, List.sum_append, List.map_cons, List.map_nil, List.sum_cons,
         List.sum_nil, potential_start]) <;>
    (try rw [sum_map_set_eq (Worker.weight f h) _ _ _ _ ‹_›]) <;>
    (try have hle1 := hle _ _ ‹_›) <;>
    (try have hres := (hB _ (mem_of_getElem_some _ _ _ ‹_›)).resEq _ ‹_›) <;>
    (try subst hres) <;>
    (try simp only [Worker.weight, Worker.potential, below_cons, below_nil, List.map_append, List.sum_append,
         List.map_nil, List.sum_nil,
         reduceCtorEq, false_or, or_false, or_true, true_or, or_self, true_and, and_true,
         if_true, if_false, *] at hle1) <;>
    (try simp only [Worker.weight, Worker.potential, below_cons, below_nil, List.map_append, List.sum_append,
         List.map_nil, List.sum_nil,
         reduceCtorEq, false_or, or_false, or_true, true_or, or_self, true_and, and_true,
         if_true, if_false, *]) <;>
    (try omega)

/-! ## Marks, owners and started children -/

theorem Worker.Evolves.refl (c : Worker) : Worker.Evolves c c :=
  ⟨rfl, rfl, fun h => h, fun h => Or.inl h, fun h => h⟩

theorem exists_mem_set_of_mem (l : List Worker) (i : Nat) (w w' : Worker)
    (hw : l[i]? = some w) (hR : Worker.Evolves w w') :
    ∀ c ∈ l, ∃ c' ∈ l.set i w', Worker.Evolves c c' := by
  intro c hc
  obtain ⟨j, hj, hget⟩ := List.getElem_of_mem hc
  obtain ⟨hi, hwi⟩ := List.getElem?_eq_some.1 hw
  by_cases hij : i = j
  · subst hij
    have : w = c := by rw [← hwi, ← hget]
    subst this
    exact ⟨w', List.mem_iff_getElem.2 ⟨i, by simpa using hi, by simp⟩, hR⟩
  · refine ⟨c, List.mem_iff_getElem.2 ⟨j, by simpa using hj, ?_⟩, Worker.Evolves.refl c⟩
    rw [List.getElem_set_ne hij]
    exact hget

theorem pool_mono (f : Fetcher) (url : String) (depth : Int) (s s' : State)
    (ht : Trans f url depth s s') : ∀ c ∈ s.pool, ∃ c' ∈ s'.pool, Worker.Evolves c c' := by
  have hrefl : ∀ c ∈ s.pool, ∃ c' ∈ s.pool, Worker.Evolves c c' :=
    fun c hc => ⟨c, hc, Worker.Evolves.refl c⟩
  cases ht <;> dsimp only <;> (try exact hrefl)
  case mainGoWorker =>
    intro c hc
    exact ⟨c, List.mem_append_left _ hc, Worker.Evolves.refl c⟩
  case spawn i w u tl hp hw hpc hrest hx =>
    intro c hc
    obtain ⟨c', hc', hE⟩ := exists_mem_set_of_mem s.pool i w
      { w with pc := Label.range, rest := tl } hw (by simp [Worker.Evolves, hpc]) c hc
    exact ⟨c', List.mem_append_left _ hc', hE⟩
  all_goals
    exact exists_mem_set_of_mem s.pool _ _ _ ‹_› (by simp [Worker.Evolves, *])

theorem fetched_mono (f : Fetcher) (url : String) (depth : Int) (s s' : State)
    (ht : Trans f url depth s s') : ∀ u ∈ s.fetched, u ∈ s'.fetched := by
  cases ht <;> dsimp only <;> (try exact fun u hu => hu)
  case store i w hp hw hpc hx =>
    intro u hu
    exact List.mem_insert_of_mem hu

theorem invK_init (f : Fetcher) (fetched0 : List String) (seed : String) (maxDepth : Int) :
    InvK f fetched0 seed maxDepth (initState fetched0) := by
  constructor <;> simp [initState]

theorem root_step (f : Fetcher) (seed : String) (maxDepth : Int) (s s' : State)
    (h : s.main = MainLabel.recv ∨ s.main = MainLabel.ret →
      ∃ w ∈ s.pool, w.url = seed ∧ w.depth = maxDepth)
    (ht : Trans f seed maxDepth s s') :
    s'.main = MainLabel.recv ∨ s'.main = MainLabel.ret →
      ∃ w ∈ s'.pool, w.url = seed ∧ w.depth = maxDepth := by
  have hmono := pool_mono f seed maxDepth s s' ht
  have key : (s.main = MainLabel.recv ∨ s.main = MainLabel.ret) →
      ∃ w ∈ s'.pool, w.url = seed ∧ w.depth = maxDepth := by
    intro hm
    obtain ⟨w, hw, h1, h2⟩ := h hm
    obtain ⟨c', hc', hE⟩ := hmono w hw
    exact ⟨c', hc', by rw [hE.1, h1], by rw [hE.2.1, h2]⟩
  cases ht <;> dsimp only at key ⊢ <;> (try exact key) <;> (try simp [*])
  case mainGoWorker => exact ⟨Worker.start seed maxDepth, Or.inr rfl, rfl, rfl⟩

theorem marked_step (f : Fetcher) (seed : String) (maxDepth : Int) (s s' : State)
    (h : ∀ w ∈ s.pool, 0 < w.depth →
      w.pc ≠ Label.depthCheck ∧ w.pc ≠ Label.fetchedCheck ∧ w.pc ≠ Label.mark ∧
        w.pc ≠ Label.store → w.url ∈ s.fetched)
    (ht : Trans f seed maxDepth s s') :
    ∀ w ∈ s'.pool, 0 < w.depth →
      w.pc ≠ Label.depthCheck ∧ w.pc ≠ Label.fetchedCheck ∧ w.pc ≠ Label.mark ∧
        w.pc ≠ Label.store → w.url ∈ s'.fetched := by
  cases ht <;> dsimp only <;> (try exact h) <;>
    (try simp only [List.forall_mem_append, List.mem_singleton, forall_eq]) <;>
    (try refine ⟨?_, by simp [Worker.start]⟩) <;>
    (try exact h) <;>
    (try have hold := h _ (mem_of_getElem_some _ _ _ ‹s.pool[_]? = some _›)) <;>
    (try
      (apply forall_mem_set
       · intro x hx hd hpc
         first
         | exact h x hx hd hpc
         | exact List.mem_insert_of_mem (h x hx hd hpc)
       · dsimp only
         simp_all))

theorem mem_set_self {α : Type} (l : List α) (i : Nat) (w a : α) (hw : l[i]? = some w) :
    a ∈ l.set i a := by
  obtain ⟨hi, _⟩ := List.getElem?_eq_some.1 hw
  exact List.mem_iff_getElem.2 ⟨i, by simpa using hi, by simp⟩

theorem owner_step (f : Fetcher) (fetched0 : List String) (seed : String) (maxDepth : Int)
    (s s' : State)
    (h : ∀ u ∈ s.fetched, u ∈ fetched0 ∨
      ∃ w ∈ s.pool, w.url = u ∧ (w.pc = Label.fetch ∨ w.res ≠ none))
    (ht : Trans f seed maxDepth s s') :
    ∀ u ∈ s'.fetched, u ∈ fetched0 ∨
      ∃ w ∈ s'.pool, w.url = u ∧ (w.pc = Label.fetch ∨ w.res ≠ none) := by
  have hmono := pool_mono f seed maxDepth s s' ht
  have key : ∀ u ∈ s.fetched, u ∈ fetched0 ∨
      ∃ w ∈ s'.pool, w.url = u ∧ (w.pc = Label.fetch ∨ w.res ≠ none) := by
    intro u hu
    rcases h u hu with h0 | ⟨w, hw, h1, h2⟩
    · exact Or.inl h0
    · obtain ⟨c', hc', hE⟩ := hmono w hw
      refine Or.inr ⟨c', hc', by rw [hE.1, h1], ?_⟩
      rcases h2 with h2 | h2
      · exact hE.2.2.2.1 h2
      · exact Or.inr (hE.2.2.1 h2)
  cases ht <;> dsimp only at key ⊢ <;> (try exact key)
  case store i w hp hw hpc hx =>
    intro u hu
    rcases List.mem_insert_iff.1 hu with hu | hu
    · subst hu
      exact Or.inr ⟨_, mem_set_self _ _ _ _ hw, rfl, Or.inl rfl⟩
    · exact key u hu

theorem kids_step (f : Fetcher) (seed : String) (maxDepth : Int) (s s' : State)
    (hok : ∀ w ∈ s.pool, WorkerOk f w)
    (h : ∀ w ∈ s.pool, w.res ≠ none → (f w.url).err = none →
      w.pc ≠ Label.send ∧ w.pc ≠ Label.errCheck →
      ∀ u ∈ (f w.url).urls, u ∈ w.rest ∨ ∃ c ∈ s.pool, c.url = u ∧ c.depth = w.depth - 1)
    (ht : Trans f seed maxDepth s s') :
    ∀ w ∈ s'.pool, w.res ≠ none → (f w.url).err = none →
      w.pc ≠ Label.send ∧ w.pc ≠ Label.errCheck →
      ∀ u ∈ (f w.url).urls, u ∈ w.rest ∨ ∃ c ∈ s'.pool, c.url = u ∧ c.depth = w.depth - 1 := by
  have hmono := pool_mono f seed maxDepth s s' ht
  have key : ∀ w ∈ s.pool, w.res ≠ none → (f w.url).err = none →
      w.pc ≠ Label.send ∧ w.pc ≠ Label.errCheck →
      ∀ u ∈ (f w.url).urls, u ∈ w.rest ∨ ∃ c ∈ s'.pool, c.url = u ∧ c.depth = w.depth - 1 := by
    intro w hw h1 h2 h3 u hu
    rcases h w hw h1 h2 h3 u hu with h0 | ⟨c, hc, hc1, hc2⟩
    · exact Or.inl h0
    · obtain ⟨c', hc', hE⟩ := hmono c hc
      exact Or.inr ⟨c', hc', by rw [hE.1, hc1], by rw [hE.2.1, hc2]⟩
  clear hmono h
  cases ht <;> dsimp only at key ⊢ <;> (try exact key)
  case mainGoWorker =>
    simp only [List.forall_mem_append, List.mem_singleton, forall_eq]
    exact ⟨key, by simp [Worker.start]⟩
  case spawn i w u0 tl hp hw hpc hrest hx =>
    have hm := mem_of_getElem_some _ _ _ hw
    simp only [List.forall_mem_append, List.mem_singleton, forall_eq]
    refine ⟨?_, by simp [Worker.start]⟩
    apply forall_mem_set _ _ _ _ key
    dsimp only
    intro h1 h2 _ u hu
    rcases key w hm h1 h2 (by simp [hpc]) u hu with h0 | h0
    · rw [hrest] at h0
      rcases List.mem_cons.1 h0 with h0 | h0
      · subst h0
        exact Or.inr ⟨Worker.start u (w.depth - 1), by simp, rfl, rfl⟩
      · exact Or.inl h0
    · exact Or.inr h0
  case depthStop i w hp hw hpc hd hx =>
    have hm := mem_of_getElem_some _ _ _ hw
    apply forall_mem_set _ _ _ _ key
    intro h1
    exact absurd ((hok _ hm).resNone (by simp [hpc])) h1
  case depthGo i w hp hw hpc hd hx =>
    have hm := mem_of_getElem_some _ _ _ hw
    apply forall_mem_set _ _ _ _ key
    intro h1
    exact absurd ((hok _ hm).resNone (by simp [hpc])) h1
  case fetchedHit i w hp hw hpc hf hwr hx =>
    have hm := mem_of_getElem_some _ _ _ hw
    apply forall_mem_set _ _ _ _ key
    intro h1
    exact absurd ((hok _ hm).resNone (by simp [hpc])) h1
  case fetchedMiss i w hp hw hpc hf hwr hx =>
    have hm := mem_of_getElem_some _ _ _ hw
    apply forall_mem_set _ _ _ _ key
    intro h1
    exact absurd ((hok _ hm).resNone (by simp [hpc])) h1
  case mark i w hp hw hpc hwr hx =>
    have hm := mem_of_getElem_some _ _ _ hw
    apply forall_mem_set _ _ _ _ key
    intro h1
    exact absurd ((hok _ hm).resNone (by simp [hpc])) h1
  case store i w hp hw hpc hx =>
    have hm := mem_of_getElem_some _ _ _ hw
    apply forall_mem_set _ _ _ _ key
    intro h1
    exact absurd ((hok _ hm).resNone (by simp [hpc])) h1
  case fetch i w hp hw hpc hx =>
    apply forall_mem_set _ _ _ _ key
    intro _ _ h3
    exact absurd rfl h3.1
  case send i w r hp hw hpc hr hcl hroom hx =>
    apply forall_mem_set _ _ _ _ key
    intro _ _ h3
    exact absurd rfl h3.2
  case errStop i w r hp hw hpc hr he hx =>
    have hm := mem_of_getElem_some _ _ _ hw
    have hreq := (hok _ hm).resEq _ hr
    subst hreq
    apply forall_mem_set _ _ _ _ key
    intro _ h2
    exact absurd h2 he
  case errGo i w r hp hw hpc hr he hx =>
    have hm := mem_of_getElem_some _ _ _ hw
    have hreq := (hok _ hm).resEq _ hr
    subst hreq
    apply forall_mem_set _ _ _ _ key
    intro _ _ _ u hu
    exact Or.inl hu
  case rangeEnd i w hp hw hpc hrest hx =>
    have hm := mem_of_getElem_some _ _ _ hw
    apply forall_mem_set _ _ _ _ key
    intro h1 h2 _ u hu
    exact key _ hm h1 h2 (by simp [hpc]) u hu
  case rangeNext i w u0 tl hp hw hpc hrest hx =>
    have hm := mem_of_getElem_some _ _ _ hw
    apply forall_mem_set _ _ _ _ key
    intro h1 h2 _ u hu
    exact key _ hm h1 h2 (by simp [hpc]) u hu
  case add i w hp hw hpc hx =>
    have hm := mem_of_getElem_some _ _ _ hw
    apply forall_mem_set _ _ _ _ key
    intro h1 h2 _ u hu
    exact key _ hm h1 h2 (by simp [hpc]) u hu
  case done i w hp hw hpc hwg hx =>
    have hm := mem_of_getElem_some _ _ _ hw
    apply forall_mem_set _ _ _ _ key
    intro h1 h2 _ u hu
    exact key _ hm h1 h2 (by simp [hpc]) u hu

theorem invK_step (f : Fetcher) (fetched0 : List String) (seed : String) (maxDepth : Int)
    (s s' : State) (hok : ∀ w ∈ s.pool, WorkerOk f w) (h : InvK f fetched0 seed maxDepth s)
    (ht : Trans f seed maxDepth s s') : InvK f fetched0 seed maxDepth s' :=
  ⟨root_step f seed maxDepth s s' h.root ht,
   marked_step f seed maxDepth s s' h.marked ht,
   owner_step f fetched0 seed maxDepth s s' h.owner ht,
   kids_step f seed maxDepth s s' hok h.kids ht⟩

theorem reachable_invK (f : Fetcher) (fetched0 : List String) (url : String) (depth : Int)
    (s : State) (hr : Reachable f fetched0 url depth s) : InvK f fetched0 url depth s :=
  (Reachable.induct f fetched0 url depth
    (fun s => InvB f url depth s ∧ InvK f fetched0 url depth s)
    ⟨invB_init f url depth fetched0, invK_init f fetched0 url depth⟩
    (fun s s' h ht => ⟨invB_step f url depth s s' h.1 ht,
      invK_step f fetched0 url depth s s' h.1.ok h.2 ht⟩) s hr).2

theorem reachable_weight (f : Fetcher) (fetched0 : List String) (url : String) (depth : Int)
    (h : String × Int → Nat) (s : State) (hr : Reachable f fetched0 url depth s) :
    s.weight f url depth h ≤ ((spawnTree f url depth).map h).sum :=
  (Reachable.induct f fetched0 url depth
    (fun s => InvB f url depth s ∧
      s.weight f url depth h ≤ ((spawnTree f url depth).map h).sum)
    ⟨invB_init f url depth fetched0, by simp [State.weight, initState]⟩
    (fun s s' hs ht => ⟨invB_step f url depth s s' hs.1 ht,
      Nat.le_trans (weight_step f url depth h s s' hs.1.ok ht) hs.2⟩) s hr).2

/-! ## Every call to `Fetch` and every outcome belongs to one worker -/

theorem calls_step (f : Fetcher) (url : String) (depth : Int) (s s' : State)
    (hok : ∀ w ∈ s.pool, WorkerOk f w)
    (h : ∀ φ : String → Nat, (s.fetchLog.map φ).sum = (s.pool.map (Worker.fetchedIt φ)).sum)
    (ht : Trans f url depth s s') :
    ∀ φ : String → Nat, (s'.fetchLog.map φ).sum = (s'.pool.map (Worker.fetchedIt φ)).sum := by
  intro φ
  have h2 := h φ
  have hle := fun i w => le_sum_map_of_getElem (Worker.fetchedIt φ) s.pool i w
  cases ht
  case fetch i w hp hw hpc hx =>
    have hnone := (hok _ (mem_of_getElem_some _ _ _ hw)).resNone (by simp [hpc])
    have hle1 := hle _ _ hw
    dsimp only
    rw [sum_map_set_eq (Worker.fetchedIt φ) _ _ _ _ hw]
    simp only [Worker.fetchedIt, hnone, ne_eq, not_true_eq_false, not_false_eq_true, reduceCtorEq,
      if_true, if_false, List.map_append, List.sum_append, List.map_cons, List.map_nil,
      List.sum_cons, List.sum_nil] at hle1 ⊢
    omega
  all_goals dsimp only <;> (try exact h2) <;>
    (try simp only [List.map_append, List.sum_append, List.map_cons, List.map_nil, List.sum_cons,
         List.sum_nil, Worker.start]) <;>
    (try rw [sum_map_set_eq (Worker.fetchedIt φ) _ _ _ _ ‹_›]) <;>
    (try have hle1 := hle _ _ ‹_›) <;>
    (try simp only [Worker.fetchedIt, ne_eq, not_true_eq_false, not_false_eq_true, reduceCtorEq,
         if_true, if_false, *] at hle1) <;>
    (try simp only [Worker.fetchedIt, ne_eq, not_true_eq_false, not_false_eq_true, reduceCtorEq,
         if_true, if_false, *]) <;>
    (try omega)

theorem sends_step (f : Fetcher) (url : String) (depth : Int) (s s' : State)
    (hok : ∀ w ∈ s.pool, WorkerOk f w)
    (h : ∀ r, (s.ch ++ s.delivered).count r = (s.pool.map (Worker.sentIt f r)).sum)
    (ht : Trans f url depth s s') :
    ∀ r, (s'.ch ++ s'.delivered).count r = (s'.pool.map (Worker.sentIt f r)).sum := by
  intro r
  have h2 := h r
  have hle := fun i w => le_sum_map_of_getElem (Worker.sentIt f r) s.pool i w
  cases ht
  case fetch i w hp hw hpc hx =>
    have hnone := (hok _ (mem_of_getElem_some _ _ _ hw)).resNone (by simp [hpc])
    have hle1 := hle _ _ hw
    dsimp only
    rw [sum_map_set_eq (Worker.sentIt f r) _ _ _ _ hw]
    simp only [Worker.sentIt, hnone, ne_eq, not_true_eq_false, not_false_eq_true, reduceCtorEq,
      false_and, true_and, and_false, if_true, if_false] at hle1 ⊢
    omega
  case send i w r0 hp hw hpc hr hcl hroom hx =>
    have hreq := (hok _ (mem_of_getElem_some _ _ _ hw)).resEq _ hr
    subst hreq
    have hle1 := hle _ _ hw
    dsimp only
    rw [sum_map_set_eq (Worker.sentIt f r) _ _ _ _ hw]
    simp only [Worker.sentIt, hr, hpc, outcomeOf, ne_eq, not_true_eq_false, not_false_eq_true,
      reduceCtorEq, false_and, true_and, and_false, if_true, if_false, List.count_append,
      List.count_cons, List.count_nil, beq_iff_eq] at hle1 h2 ⊢
    omega
  case mainRecv r0 rs hp hm hch hx =>
    dsimp only
    simp only [hch, List.count_append, List.count_cons, List.count_nil] at h2 ⊢
    omega
  all_goals dsimp only <;> (try exact h2) <;>
    (try simp only [List.map_append, List.sum_append, List.map_cons, List.map_nil, List.sum_cons,
         List.sum_nil, Worker.start]) <;>
    (try rw [sum_map_set_eq (Worker.sentIt f r) _ _ _ _ ‹_›]) <;>
    (try have hle1 := hle _ _ ‹_›) <;>
    (try simp only [Worker.sentIt, ne_eq, not_true_eq_false, not_false_eq_true, reduceCtorEq,
         false_and, true_and, if_true, if_false, *] at hle1) <;>
    (try simp only [Worker.sentIt, ne_eq, not_true_eq_false, not_false_eq_true, reduceCtorEq,
         false_and, true_and, if_true, if_false, *]) <;>
    (try omega)

theorem invL_init (f : Fetcher) (fetched0 : List String) : InvL f (initState fetched0) := by
  constructor <;> simp [initState]

theorem invL_step (f : Fetcher) (url : String) (depth : Int) (s s' : State)
    (hok : ∀ w ∈ s.pool, WorkerOk f w) (h : InvL f s) (ht : Trans f url depth s s') :
    InvL f s' :=
  ⟨calls_step f url depth s s' hok h.calls ht, sends_step f url depth s s' hok h.sends ht⟩

theorem reachable_invL (f : Fetcher) (fetched0 : List String) (url : String) (depth : Int)
    (s : State) (hr : Reachable f fetched0 url depth s) : InvL f s :=
  (Reachable.induct f fetched0 url depth (fun s => InvB f url depth s ∧ InvL f s)
    ⟨invB_init f url depth fetched0, invL_init f fetched0⟩
    (fun s s' h ht => ⟨invB_step f url depth s s' h.1 ht,
      invL_step f url depth s s' h.1.ok h.2 ht⟩) s hr).2

/-! ## What a finished crawl has fetched and delivered -/

theorem sum_indicator {α : Type} (p : α → Bool) (l : List α) :
    (l.map (fun x => if p x then 1 else 0)).sum = l.countP p := by
  induction l with
  | nil => rfl
  | cons a l ih =>
    simp only [List.map_cons, List.sum_cons, List.countP_cons, ih]
    omega

theorem sum_map_le_sum_map {α : Type} (g1 g2 : α → Nat) (l : List α)
    (h : ∀ x ∈ l, g1 x ≤ g2 x) : (l.map g1).sum ≤ (l.map g2).sum := by
  induction l with
  | nil => simp
  | cons a l ih =>
    have h1 := h a (by simp)
    have h2 := ih (fun x hx => h x (by simp [hx]))
    simp only [List.map_cons, List.sum_cons]
    omega

theorem regSum_eq (l : List Worker) :
    (l.map Worker.regWeight).sum =
      l.countP (fun w => decide (w.pc ≠ Label.exited)) +
        l.countP (fun w => decide (w.pc = Label.spawn)) := by
  induction l with
  | nil => rfl
  | cons a l ih =>
    simp only [List.map_cons, List.sum_cons, List.countP_cons, ih, Worker.regWeight]
    by_cases h1 : a.pc = Label.exited <;> by_cases h2 : a.pc = Label.spawn <;>
      simp [h1, h2] <;> omega

theorem registered_eq (s : State) : s.registered = s.unfinished + s.pendingStarts := by
  unfold State.registered State.unfinished State.pendingStarts
  rw [regSum_eq]
  omega

theorem reachable_stateAfter (f : Fetcher) (fetched0 : List String) (url : String)
    (depth : Int) (sched : List Actor)
    (h : (exec f url depth sched (initState fetched0)).isSome = true) :
    Reachable f fetched0 url depth (stateAfter f fetched0 url depth sched) := by
  unfold stateAfter
  cases he : exec f url depth sched (initState fetched0) with
  | none => simp [he] at h
  | some s => exact ⟨sched, by simp [he]⟩

theorem exec_stateAfter (f : Fetcher) (fetched0 : List String) (url : String)
    (depth : Int) (sched : List Actor)
    (h : (exec f url depth sched (initState fetched0)).isSome = true) :
    exec f url depth sched (initState fetched0) =
      some (stateAfter f fetched0 url depth sched) := by
  unfold stateAfter
  cases he : exec f url depth sched (initState fetched0) with
  | none => simp [he] at h
  | some s => simp

theorem all_exited_of_closed (s : State) (hA : InvA s) (hc : s.closed = true) :
    s.unfinished = 0 ∧ s.pendingStarts = 0 ∧ ∀ w ∈ s.pool, w.pc = Label.exited := by
  have h1 := hA.closing (Or.inr (hA.closedIff.1 hc))
  have h2 := hA.count
  rw [registered_eq] at h2
  have h3 : s.unfinished = 0 := by omega
  refine ⟨h3, by omega, ?_⟩
  intro w hw
  unfold State.unfinished at h3
  have := (List.countP_eq_zero.1 h3) w hw
  simpa using this

theorem pool_length_le (f : Fetcher) (fetched0 : List String) (url : String) (depth : Int)
    (s : State) (hr : Reachable f fetched0 url depth s) :
    s.pool.length ≤ (spawnTree f url depth).length := by
  have h := reachable_weight f fetched0 url depth (fun _ => 1) s hr
  have h1 : (s.pool.map (fun _ => 1)).sum ≤ (s.pool.map (Worker.weight f (fun _ => 1))).sum :=
    sum_map_le_sum_map _ _ _ (fun w _ => by simp [Worker.weight])
  unfold State.weight at h
  simp only [List.map_const', List.sum_replicate, smul_eq_mul, mul_one] at h h1
  omega

theorem fetchLog_count_le (f : Fetcher) (fetched0 : List String) (url : String) (depth : Int)
    (s : State) (hr : Reachable f fetched0 url depth s) (u : String) :
    s.fetchLog.count u ≤ (fetchable f url depth).count u := by
  have hB := reachable_invB f fetched0 url depth s hr
  have hL := (reachable_invL f fetched0 url depth s hr).calls (fun v => if v = u then 1 else 0)
  have hW := reachable_weight f fetched0 url depth
    (fun k => if k.1 = u ∧ 0 < k.2 then 1 else 0) s hr
  have h1 : (s.pool.map (Worker.fetchedIt (fun v => if v = u then 1 else 0))).sum ≤
      (s.pool.map (Worker.weight f (fun k => if k.1 = u ∧ 0 < k.2 then 1 else 0))).sum := by
    apply sum_map_le_sum_map
    intro w hw
    unfold Worker.fetchedIt Worker.weight
    by_cases hres : w.res = none
    · simp [hres]
    · have hd := (hB.ok w hw).depthPos (Or.inr (Or.inr (Or.inr (Or.inr hres))))
      by_cases hu : w.url = u <;> simp [hres, hu, hd]
  have h2 : (s.fetchLog.map (fun v => if v = u then 1 else 0)).sum = s.fetchLog.count u := by
    have := sum_indicator (fun v => decide (v = u)) s.fetchLog
    simp only [decide_eq_true_eq] at this
    rw [this, List.count]
    congr 1
  have h3 : ((spawnTree f url depth).map
      (fun k => if k.1 = u ∧ 0 < k.2 then 1 else 0)).sum = (fetchable f url depth).count u := by
    unfold fetchable
    generalize spawnTree f url depth = l
    induction l with
    | nil => rfl
    | cons a l ih =>
      simp only [List.map_cons, List.sum_cons, ih, List.filter_cons]
      by_cases hd : 0 < a.2 <;> by_cases hu : a.1 = u <;> simp [hd, hu, List.count_cons] <;> omega
  unfold State.weight at hW
  omega

theorem fetchLog_subperm (f : Fetcher) (fetched0 : List String) (url : String) (depth : Int)
    (s : State) (hr : Reachable f fetched0 url depth s) :
    s.fetchLog.Subperm (fetchable f url depth) :=
  List.subperm_ext_iff.2 (fun u _ => fetchLog_count_le f fetched0 url depth s hr u)

theorem delivered_perm (f : Fetcher) (fetched0 : List String) (url : String) (depth : Int)
    (s : State) (hr : Reachable f fetched0 url depth s) (hfin : s.finished) :
    s.delivered.Perm (s.fetchLog.map (outcomeOf f)) := by
  have hA := reachable_invA f fetched0 url depth s hr
  have hL := reachable_invL f fetched0 url depth s hr
  obtain ⟨hcl, hch⟩ := hA.fin hfin
  obtain ⟨_, _, hex⟩ := all_exited_of_closed s hA hcl
  rw [List.perm_iff_count]
  intro r
  have h1 := hL.sends r
  have h2 := hL.calls (fun v => if outcomeOf f v = r then 1 else 0)
  have h3 : (s.pool.map (Worker.sentIt f r)).sum =
      (s.pool.map (Worker.fetchedIt (fun v => if outcomeOf f v = r then 1 else 0))).sum := by
    congr 1
    apply List.map_congr_left
    intro w hw
    unfold Worker.sentIt Worker.fetchedIt
    have := hex w hw
    by_cases hres : w.res = none <;> simp [hres, this]
  have h4 : (s.fetchLog.map (fun v => if outcomeOf f v = r then 1 else 0)).sum =
      (s.fetchLog.map (outcomeOf f)).count r := by
    generalize s.fetchLog = l
    induction l with
    | nil => rfl
    | cons a l ih =>
      simp only [List.map_cons, List.sum_cons, ih, List.count_cons, beq_iff_eq]
      omega
  rw [hch] at h1
  simp only [List.nil_append] at h1
  omega

theorem seed_fetched (f : Fetcher) (url : String) (depth : Int)
    (s : State) (hr : Reachable f [] url depth s) (hfin : s.finished) (hd : 0 < depth) :
    ∃ w ∈ s.pool, w.url = url ∧ w.res ≠ none := by
  have hA := reachable_invA f [] url depth s hr
  have hK := reachable_invK f [] url depth s hr
  obtain ⟨hcl, _⟩ := hA.fin hfin
  obtain ⟨_, _, hex⟩ := all_exited_of_closed s hA hcl
  obtain ⟨w, hw, hu, hdep⟩ := hK.root (Or.inr hfin)
  have hm := hK.marked w hw (by omega) (by simp [hex w hw])
  rcases hK.owner _ hm with h0 | ⟨c, hc, hcu, hcp⟩
  · simp at h0
  · refine ⟨c, hc, by rw [hcu, hu], ?_⟩
    rcases hcp with hcp | hcp
    · rw [hex c hc] at hcp; simp at hcp
    · exact hcp

theorem kids_fetched (f : Fetcher) (url : String) (depth : Int)
    (s : State) (hr : Reachable f [] url depth s) (hfin : s.finished)
    (w : Worker) (hw : w ∈ s.pool) (hres : w.res ≠ none) (he : (f w.url).err = none)
    (hd : 1 < w.depth) (u : String) (hu : u ∈ (f w.url).urls) :
    ∃ c ∈ s.pool, c.url = u ∧ c.res ≠ none := by
  have hA := reachable_invA f [] url depth s hr
  have hB := reachable_invB f [] url depth s hr
  have hK := reachable_invK f [] url depth s hr
  obtain ⟨hcl, _⟩ := hA.fin hfin
  obtain ⟨_, _, hex⟩ := all_exited_of_closed s hA hcl
  have hrest := (hB.ok w hw).restNil (by simp [hex w hw])
  rcases hK.kids w hw hres he (by simp [hex w hw]) u hu with h0 | ⟨k, hk, hku, hkd⟩
  · rw [hrest] at h0; simp at h0
  · have hm := hK.marked k hk (by omega) (by simp [hex k hk])
    rcases hK.owner _ hm with h0 | ⟨c, hc, hcu, hcp⟩
    · simp at h0
    · refine ⟨c, hc, by rw [hcu, hku], ?_⟩
      rcases hcp with hcp | hcp
      · rw [hex c hc] at hcp; simp at hcp
      · exact hcp

theorem worker_in_tree (f : Fetcher) (fetched0 : List String) (url : String) (depth : Int)
    (s : State) (hr : Reachable f fetched0 url depth s) (w : Worker) (hw : w ∈ s.pool) :
    (w.url, w.depth) ∈ spawnTree f url depth := by
  have hW := reachable_weight f fetched0 url depth
    (fun k => if k = (w.url, w.depth) then 1 else 0) s hr
  have h1 : 1 ≤ (s.pool.map (Worker.weight f
      (fun k => if k = (w.url, w.depth) then 1 else 0))).sum := by
    have := List.single_le_sum (by simp) _ (List.mem_map_of_mem
      (Worker.weight f (fun k => if k = (w.url, w.depth) then 1 else 0)) hw)
    have h2 : 1 ≤ Worker.weight f (fun k => if k = (w.url, w.depth) then 1 else 0) w := by
      simp [Worker.weight]
    omega
  unfold State.weight at hW
  by_contra hnot
  have h3 : ((spawnTree f url depth).map
      (fun k => if k = (w.url, w.depth) then 1 else 0)).sum = 0 := by
    apply List.sum_eq_zero
    intro x hx
    obtain ⟨k, hk, rfl⟩ := List.mem_map.1 hx
    have : k ≠ (w.url, w.depth) := fun h => hnot (h ▸ hk)
    simp [this]
  omega

/-! ## The write flag is up only while one worker assigns -/

theorem storing_sum_lt (l : List Worker) (i : Nat) (w : Worker) (hw : l[i]? = some w)
    (hpc : w.pc ≠ Label.store) : (l.map Worker.storing).sum + 1 ≤ l.length := by
  induction l generalizing i with
  | nil => simp at hw
  | cons a l ih =>
    cases i with
    | zero =>
      simp at hw
      subst hw
      have h1 : (l.map Worker.storing).sum ≤ (l.map (fun _ => 1)).sum :=
        sum_map_le_sum_map _ _ _ (fun x _ => by unfold Worker.storing; split <;> omega)
      simp only [List.map_const', List.sum_replicate, smul_eq_mul, mul_one] at h1
      simp only [List.map_cons, List.sum_cons, List.length_cons, Worker.storing, hpc, if_false]
      omega
    | succ i =>
      simp at hw
      have h1 := ih i hw
      have h2 : Worker.storing a ≤ 1 := by unfold Worker.storing; split <;> omega
      simp only [List.map_cons, List.sum_cons, List.length_cons]
      omega

theorem flag_step (f : Fetcher) (url : String) (depth : Int) (s s' : State)
    (h2 : (if s.writing then 1 else 0) = (s.pool.map Worker.storing).sum)
    (ht : Trans f url depth s s') :
    (if s'.writing then 1 else 0) = (s'.pool.map Worker.storing).sum := by
  have hle := fun i w => le_sum_map_of_getElem Worker.storing s.pool i w
  cases ht <;> dsimp only <;> (try exact h2) <;>
    (try simp only [List.map_append, List.sum_append, List.map_cons, List.map_nil, List.sum_cons,
         List.sum_nil, Worker.start]) <;>
    (try rw [sum_map_set_eq Worker.storing _ _ _ _ ‹_›]) <;>
    (try have hle1 := hle _ _ ‹_›) <;>
    (try simp only [Worker.storing, reduceCtorEq, Bool.false_eq_true, if_true, if_false,
         *] at hle1) <;>
    (try simp only [Worker.storing, reduceCtorEq, Bool.false_eq_true, if_true, if_false,
         *] at h2) <;>
    (try simp only [Worker.storing, reduceCtorEq, Bool.false_eq_true, if_true, if_false, *]) <;>
    (try omega)
  case store i w hp hw hpc hx =>
    have h3 : (if s.writing = true then 1 else 0) ≤ 1 := by split <;> omega
    omega

theorem lone_step (f : Fetcher) (url : String) (depth : Int) (s s' : State)
    (hf : (if s.writing then 1 else 0) = (s.pool.map Worker.storing).sum)
    (h : s.fatal = true → 2 ≤ s.pool.length) (ht : Trans f url depth s s') :
    s'.fatal = true → 2 ≤ s'.pool.length := by
  cases ht <;> dsimp only <;> (try exact h) <;>
    (try simp only [List.length_set, List.length_append, List.length_singleton]) <;>
    (try (intro hx'; have := h hx'; omega))
  case checkFatal i w hp hw hpc hwr hx =>
    intro _
    have h1 := storing_sum_lt s.pool i w hw (by simp [hpc])
    simp only [hwr, if_true] at hf
    omega
  case markFatal i w hp hw hpc hwr hx =>
    intro _
    have h1 := storing_sum_lt s.pool i w hw (by simp [hpc])
    simp only [hwr, if_true] at hf
    omega

theorem invW_init (fetched0 : List String) : InvW (initState fetched0) := by
  constructor <;> simp [initState]

theorem invW_step (f : Fetcher) (url : String) (depth : Int) (s s' : State)
    (h : InvW s) (ht : Trans f url depth s s') : InvW s' :=
  ⟨flag_step f url depth s s' h.flag ht, lone_step f url depth s s' h.flag h.lone ht⟩

theorem reachable_invW (f : Fetcher) (fetched0 : List String) (url : String) (depth : Int)
    (s : State) (hr : Reachable f fetched0 url depth s) : InvW s :=
  Reachable.induct f fetched0 url depth InvW (invW_init fetched0)
    (fun s s' h ht => invW_step f url depth s s' h ht) s hr

theorem step_none_of_fatal (f : Fetcher) (url : String) (depth : Int) (a : Actor) (s : State)
    (h : s.fatal = true) : step f url depth a s = none := by
  simp [step, h]

/-! ## Lemmas for the scenarios -/

theorem reachable_of_exec {α : Type} (f : Fetcher) (fetched0 : List String) (url : String)
    (depth : Int) (sched : List Actor) (g : State → α) (v : α)
    (h : (exec f url depth sched (initState fetched0)).map g = some v) :
    ∃ s, Reachable f fetched0 url depth s ∧ g s = v := by
  cases he : exec f url depth sched (initState fetched0) with
  | none => simp [he] at h
  | some s => exact ⟨s, ⟨sched, he⟩, by simpa [he] using h⟩

theorem perm_of_subperm_of_mem {α : Type} [DecidableEq α] (l L : List α)
    (hs : l.Subperm L) (hn : L.Nodup) (hm : ∀ x ∈ L, x ∈ l) : l.Perm L := by
  rw [List.perm_iff_count]
  intro a
  have h1 := hs.count_le a
  by_cases ha : a ∈ L
  · have h2 := List.count_eq_one_of_mem hn ha
    have h3 := List.count_pos_iff.2 (hm a ha)
    omega
  · have h2 := List.count_eq_zero_of_not_mem ha
    omega

theorem below_depth_one (f : Fetcher) (l : List String) :
    (below f 1 l).filter (fun k => decide (0 < k.2)) = [] := by
  induction l with
  | nil => rfl
  | cons a l ih =>
    rw [below_cons, List.filter_append, ih, spawnTree_nonpos f a (1 - 1) (by omega)]
    simp

theorem fetchable_depth_one (f : Fetcher) (seed : String) : fetchable f seed 1 = [seed] := by
  unfold fetchable
  rw [spawnTree_pos f seed 1 (by omega)]
  by_cases he : (f seed).err = none
  · simp [he, below_depth_one]
  · simp [he]

theorem fetchable_seed_fails (f : Fetcher) (seed : String) (maxDepth : Int)
    (hd : 1 ≤ maxDepth) (hfail : (f seed).err ≠ none) : fetchable f seed maxDepth = [seed] := by
  unfold fetchable
  rw [spawnTree_pos f seed maxDepth (by omega)]
  have : 0 < maxDepth := by omega
  simp [hfail, this]

theorem only_seed_of_fetchable (f : Fetcher) (seed : String) (maxDepth : Int) (s : State)
    (hr : Reachable f [] seed maxDepth s) (hd : 0 < maxDepth)
    (hf : fetchable f seed maxDepth = [seed]) (hfin : s.finished) :
    s.fetchLog = [seed] ∧ s.delivered = [outcomeOf f seed] := by
  have hB := reachable_invB f [] seed maxDepth s hr
  have hsub := fetchLog_subperm f [] seed maxDepth s hr
  rw [hf] at hsub
  obtain ⟨w, hw, hu, hres⟩ := seed_fetched f seed maxDepth s hr hfin hd
  have hmem : seed ∈ s.fetchLog := hu ▸ hB.logged w hw hres
  have hperm := perm_of_subperm_of_mem s.fetchLog [seed] hsub (by simp)
    (by simpa using hmem)
  have hlog := List.perm_singleton.1 hperm
  refine ⟨hlog, ?_⟩
  have hdel := delivered_perm f [] seed maxDepth s hr hfin
  rw [hlog] at hdel
  exact List.perm_singleton.1 hdel

theorem silent_step (f : Fetcher) (seed : String) (depth : Int) (s s' : State)
    (h : Silent seed s) (ht : Trans f seed depth s s') : Silent seed s' := by
  obtain ⟨h1, h0, h2, h3, h4, h5⟩ := h
  cases ht <;>
    (try have hw2 := h2 _ (mem_of_getElem_some _ _ _ ‹s.pool[_]? = some _›)) <;>
    refine ⟨?_, ?_, ?_, ?_, ?_, ?_⟩ <;> dsimp only <;>
    first
    | assumption
    | (apply forall_mem_set _ _ _ _ h2
       simp_all
       done)
    | (simp_all
       done)
    | (simp only [List.forall_mem_append, List.mem_singleton, forall_eq]
       exact ⟨h2, rfl, rfl, Or.inl rfl⟩)

theorem silent_reachable (f : Fetcher) (fetched0 : List String) (seed : String) (depth : Int)
    (s : State) (hm : seed ∈ fetched0) (hr : Reachable f fetched0 seed depth s) :
    Silent seed s :=
  Reachable.induct f fetched0 seed depth (Silent seed)
    ⟨hm, rfl, by simp [initState], rfl, rfl, rfl⟩
    (fun s s' h ht => silent_step f seed depth s s' h ht) s hr

theorem seed_marked (f : Fetcher) (fetched0 : List String) (seed : String) (depth : Int)
    (s : State) (hr : Reachable f fetched0 seed depth s) (hfin : s.finished) (hd : 0 < depth) :
    seed ∈ s.fetched := by
  have hA := reachable_invA f fetched0 seed depth s hr
  have hK := reachable_invK f fetched0 seed depth s hr
  obtain ⟨hcl, _⟩ := hA.fin hfin
  obtain ⟨_, _, hex⟩ := all_exited_of_closed s hA hcl
  obtain ⟨w, hw, hu, hdep⟩ := hK.root (Or.inr hfin)
  exact hu ▸ hK.marked w hw (by omega) (by simp [hex w hw])

/-! ## What holds of the runs the runtime does not end -/

/-- Every run of `Crawl` has at most `stepBound f url depth` steps and starts at
most as many workers as the spawn tree has nodes; unless the runtime has ended
the process, a state in which `Crawl` has not returned has a goroutine that
can move; and when `Crawl` has returned, `ch` is closed and empty and every
worker has ended. -/
theorem run_bounded (f : Fetcher) (fetched0 : List String) (url : String) (depth : Int)
    (sched : List Actor) (s : State)
    (h : exec f url depth sched (initState fetched0) = some s) :
    sched.length ≤ stepBound f url depth ∧
    s.pool.length ≤ (spawnTree f url depth).length ∧
    (s.fatal = false → ¬ s.finished → ∃ a, (step f url depth a s).isSome = true) ∧
    (s.finished → s.closed = true ∧ s.ch = [] ∧ ∀ w ∈ s.pool, w.pc = Label.exited) := by
  have hr : Reachable f fetched0 url depth s := ⟨sched, h⟩
  have hA := reachable_invA f fetched0 url depth s hr
  have hB := reachable_invB f fetched0 url depth s hr
  have hv := exec_variant f url depth sched _ _ h
  rw [variant_init] at hv
  refine ⟨by omega, pool_length_le f fetched0 url depth s hr,
    fun hx hn => progress f url depth s hA hB.ok hx hn, fun hfin => ?_⟩
  obtain ⟨hcl, hch⟩ := hA.fin hfin
  exact ⟨hcl, hch, (all_exited_of_closed s hA hcl).2.2⟩

/-- In `Crawl("A", 2, abc)` started with `fetched` empty, each of `A`, `B`, `C` is
fetched at most once and nothing else is fetched; and in every state in which
`Crawl` has returned, `Fetch` was called exactly once for each of them and
the outcomes delivered are, in some order, their three successful outcomes. -/
theorem abc_finished (s : State) (hr : Reachable abc.Fetch [] "A" 2 s) :
    s.fetchLog.Subperm ["A", "B", "C"] ∧
    (s.finished →
      s.fetchLog.Perm ["A", "B", "C"] ∧
      s.delivered.Perm [crawlResult.mk "A" "a" ["B", "C"] none,
        crawlResult.mk "B" "b" ["A"] none, crawlResult.mk "C" "c" [] none] ∧
      s.delivered.length = 3 ∧ ∀ r ∈ s.delivered, r.err = none) := by
  have hf : fetchable abc.Fetch "A" 2 = ["A", "B", "C"] := by decide
  have htree : spawnTree abc.Fetch "A" 2 = [("A", 2), ("B", 1), ("A", 0), ("C", 1)] := by
    decide
  have hB := reachable_invB abc.Fetch [] "A" 2 s hr
  have hsub := fetchLog_subperm abc.Fetch [] "A" 2 s hr
  rw [hf] at hsub
  refine ⟨hsub, ?_⟩
  intro hfin
  obtain ⟨w, hw, hu, hres⟩ := seed_fetched abc.Fetch "A" 2 s hr hfin (by decide)
  have hA : "A" ∈ s.fetchLog := hu ▸ hB.logged w hw hres
  have hin := worker_in_tree abc.Fetch [] "A" 2 s hr w hw
  have hpos := (hB.ok w hw).depthPos (Or.inr (Or.inr (Or.inr (Or.inr hres))))
  have hdep : w.depth = 2 := by
    rw [htree, hu] at hin
    simp only [List.mem_cons, Prod.mk.injEq, List.mem_singleton, List.not_mem_nil] at hin
    rcases hin with h | h | h | h | h
    · exact h.2
    · exact absurd h.1 (by decide)
    · omega
    · exact absurd h.1 (by decide)
    · exact absurd h (by simp)
  have hkid : ∀ u ∈ ["B", "C"], u ∈ s.fetchLog := by
    intro u hu'
    obtain ⟨c, hc, hcu, hcres⟩ := kids_fetched abc.Fetch "A" 2 s hr hfin w hw hres
      (by rw [hu]; decide) (by omega) u (by rw [hu]; exact hu')
    exact hcu ▸ hB.logged c hc hcres
  have hperm : s.fetchLog.Perm ["A", "B", "C"] := by
    apply perm_of_subperm_of_mem _ _ hsub (by decide)
    intro x hx
    simp only [List.mem_cons, List.mem_singleton, List.not_mem_nil, or_false] at hx
    rcases hx with rfl | rfl | rfl
    · exact hA
    · exact hkid "B" (by simp)
    · exact hkid "C" (by simp)
  have hdel := (delivered_perm abc.Fetch [] "A" 2 s hr hfin).trans
    (hperm.map (outcomeOf abc.Fetch))
  have hout : List.map (outcomeOf abc.Fetch) ["A", "B", "C"] =
      [crawlResult.mk "A" "a" ["B", "C"] none, crawlResult.mk "B" "b" ["A"] none,
       crawlResult.mk "C" "c" [] none] := by decide
  rw [hout] at hdel
  refine ⟨hperm, hdel, by simpa using hdel.length_eq, ?_⟩
  intro r hmem
  have := hdel.subset hmem
  simp only [List.mem_cons, List.mem_singleton, List.not_mem_nil, or_false] at this
  rcases this with rfl | rfl | rfl <;> rfl

/-! ## The claims -/

/-- C1 (defect in the code): in the call `Crawl("http://golang.org/", 4, fetcher)` made by
`main`, started with `fetched` empty, there is an interleaving in which `Fetch` is called
twice for `http://golang.org/cmd/`: two workers pass the check of line 52 before either
runs line 55. -/
theorem duplicate_fetch :
    ∃ s, Reachable fetcher.Fetch [] "http://golang.org/" 4 s ∧
      s.fetchLog.count "http://golang.org/cmd/" = 2 :=
  reachable_of_exec fetcher.Fetch [] "http://golang.org/" 4 schedRace
    (fun s => s.fetchLog.count "http://golang.org/cmd/") 2 (by decide)

/-- C3 (defect in the code): `Crawl("A", 2, dupLinks)`, started with `fetched` empty, has a
complete run that sends three outcomes (for `A`, `B`, `B`) although only two distinct
identifiers are marked in `fetched`. -/
theorem outcomes_exceed_marks :
    ∃ s, Reachable dupLinks.Fetch [] "A" 2 s ∧
      (s.finished ∧ s.delivered.map (fun r => r.url) = ["A", "B", "B"] ∧
        s.fetched = ["B", "A"]) :=
  reachable_of_exec dupLinks.Fetch [] "A" 2 schedDup
    (fun s => decide (s.finished ∧ s.delivered.map (fun r => r.url) = ["A", "B", "B"] ∧
        s.fetched = ["B", "A"])) true (by decide) |>.imp
    (fun _ h => ⟨h.1, by simpa using h.2⟩)

/-- C10: the identifiers a crawl fetches depend on the schedule.  `Crawl("A", 3, diamond)`,
started with `fetched` empty, has a complete run delivering outcomes for `A, B, C, D` and a
complete run delivering outcomes for `A, B, C` only: in the second the worker for `C` with
less depth left claims `C`, and `D` is never fetched. -/
theorem fetched_set_depends_on_schedule :
    (∃ s, Reachable diamond.Fetch [] "A" 3 s ∧
      (s.finished ∧ s.delivered.map (fun r => r.url) = ["A", "B", "C", "D"])) ∧
    (∃ s, Reachable diamond.Fetch [] "A" 3 s ∧
      (s.finished ∧ s.delivered.map (fun r => r.url) = ["A", "B", "C"])) :=
  ⟨(reachable_of_exec diamond.Fetch [] "A" 3 schedDeep
      (fun s => decide (s.finished ∧ s.delivered.map (fun r => r.url) = ["A", "B", "C", "D"]))
      true (by decide)).imp (fun _ h => ⟨h.1, by simpa using h.2⟩),
   (reachable_of_exec diamond.Fetch [] "A" 3 schedShallow
      (fun s => decide (s.finished ∧ s.delivered.map (fun r => r.url) = ["A", "B", "C"]))
      true (by decide)).imp (fun _ h => ⟨h.1, by simpa using h.2⟩)⟩

/-- C4: no premature close.  In every reachable state of a crawl (whatever `fetched` holds
at the start) nothing has panicked, so `ch` was never closed twice and nothing was sent on
a closed `ch` ; the WaitGroup counter equals the number of workers registered by `wg.Add`
that have not run `wg.Done()` (the goroutines not yet ended plus the registrations whose
`go` has not run yet); while a worker stands before its `go` statement the counter holds
both it and its child; `ch` is closed exactly when the closing goroutine has run its one
`close(ch)`, and then every worker ever started has ended and none is pending; and when
`Crawl` has returned, `ch` is closed. -/
theorem no_premature_close (f : Fetcher) (fetched0 : List String) (url : String) (depth : Int)
    (s : State) (hr : Reachable f fetched0 url depth s) :
    s.panicked = false ∧
    s.wg = ((s.unfinished + s.pendingStarts : Nat) : Int) ∧
    (∀ w ∈ s.pool, w.pc = Label.spawn → 2 ≤ s.wg) ∧
    (s.closed = true ↔ s.closer = CloserLabel.exited) ∧
    (s.closed = true →
      s.unfinished = 0 ∧ s.pendingStarts = 0 ∧ ∀ w ∈ s.pool, w.pc = Label.exited) ∧
    (s.finished → s.closed = true) := by
  have hA := reachable_invA f fetched0 url depth s hr
  have hcount := hA.count
  refine ⟨hA.noPanic, by rw [hcount, registered_eq], ?_, hA.closedIff,
    all_exited_of_closed s hA, fun h => (hA.fin h).1⟩
  intro w hw hpc
  have h1 := List.single_le_sum (by simp) _ (List.mem_map_of_mem Worker.regWeight hw)
  have h2 : Worker.regWeight w = 2 := by simp [Worker.regWeight, hpc]
  unfold State.registered at hcount
  omega

/-- Witness of C4: the state at the end of a complete run of `Crawl("A", 2, abc)`, where
`ch` is closed. -/
theorem no_premature_close_witness :
    (stateAfter abc.Fetch [] "A" 2 schedAbc).closed = true ∧
    ((stateAfter abc.Fetch [] "A" 2 schedAbc).panicked = false ∧
    (stateAfter abc.Fetch [] "A" 2 schedAbc).wg =
      (((stateAfter abc.Fetch [] "A" 2 schedAbc).unfinished +
        (stateAfter abc.Fetch [] "A" 2 schedAbc).pendingStarts : Nat) : Int) ∧
    (∀ w ∈ (stateAfter abc.Fetch [] "A" 2 schedAbc).pool, w.pc = Label.spawn →
      2 ≤ (stateAfter abc.Fetch [] "A" 2 schedAbc).wg) ∧
    ((stateAfter abc.Fetch [] "A" 2 schedAbc).closed = true ↔
      (stateAfter abc.Fetch [] "A" 2 schedAbc).closer = CloserLabel.exited) ∧
    ((stateAfter abc.Fetch [] "A" 2 schedAbc).closed = true →
      (stateAfter abc.Fetch [] "A" 2 schedAbc).unfinished = 0 ∧
      (stateAfter abc.Fetch [] "A" 2 schedAbc).pendingStarts = 0 ∧
      ∀ w ∈ (stateAfter abc.Fetch [] "A" 2 schedAbc).pool, w.pc = Label.exited) ∧
    ((stateAfter abc.Fetch [] "A" 2 schedAbc).finished →
      (stateAfter abc.Fetch [] "A" 2 schedAbc).closed = true)) :=
  ⟨by decide, no_premature_close abc.Fetch [] "A" 2 _
    (reachable_stateAfter abc.Fetch [] "A" 2 schedAbc (by decide))⟩

/-- C5 (defect in the code): `Crawl("http://golang.org/", 4, fetcher)`, the call made by
`main`, started with `fetched` empty, has a run that never ends with `Crawl` returned.
The workers for `.../pkg/` and `.../cmd/` both pass line 52 ; the first enters the
assignment of line 55 and the second enters it before the first has left, so the runtime
ends the process (`concurrent map writes`): no goroutine can move any more, `Crawl` has
not returned and `ch` is not closed. -/
theorem crawl_aborts :
    ∃ s, Reachable fetcher.Fetch [] "http://golang.org/" 4 s ∧
      (s.fatal = true ∧ ¬ s.finished ∧ s.closed = false ∧
        ∀ a, step fetcher.Fetch "http://golang.org/" 4 a s = none) := by
  obtain ⟨s, hr, hs⟩ := reachable_of_exec fetcher.Fetch [] "http://golang.org/" 4 schedAbort
    (fun s => decide (s.fatal = true ∧ ¬ s.finished ∧ s.closed = false)) true (by decide)
  have h : s.fatal = true ∧ ¬ s.finished ∧ s.closed = false := by simpa using hs
  exact ⟨s, hr, h.1, h.2.1, h.2.2,
    fun a => step_none_of_fatal fetcher.Fetch "http://golang.org/" 4 a s h.1⟩

/-- C2: depth bound.  In every reachable state of `Crawl(seed, maxDepth, f)` (whatever
`fetched` holds at the start) every identifier `Fetch` was called with lies at `k` links
from the seed along successfully fetched references, for some `k` with `k + 1 ≤ maxDepth`
(so at most `maxDepth - 1` links); when `maxDepth ≤ 0` nothing is fetched, sent or
delivered; and when `maxDepth = 1` only the seed is ever fetched, and a crawl started with
`fetched` empty ends having fetched exactly the seed and delivered exactly its outcome. -/
theorem depth_bound (f : Fetcher) (fetched0 : List String) (seed : String) (maxDepth : Int)
    (s : State) (hr : Reachable f fetched0 seed maxDepth s) :
    (∀ u ∈ s.fetchLog, ∃ k : Nat, (k : Int) + 1 ≤ maxDepth ∧ u ∈ frontier f seed k) ∧
    (maxDepth ≤ 0 → s.fetchLog = [] ∧ s.ch = [] ∧ s.delivered = []) ∧
    (maxDepth = 1 → (∀ u ∈ s.fetchLog, u = seed) ∧
      (fetched0 = [] → s.finished →
        s.fetchLog = [seed] ∧ s.delivered = [outcomeOf f seed])) := by
  have hB := reachable_invB f fetched0 seed maxDepth s hr
  refine ⟨hB.log, ?_, ?_⟩
  · intro hd
    have hlog : s.fetchLog = [] := by
      apply List.eq_nil_iff_forall_not_mem.2
      intro u hu
      obtain ⟨k, hk, _⟩ := hB.log u hu
      omega
    have hout : s.ch ++ s.delivered = [] := by
      apply List.eq_nil_iff_forall_not_mem.2
      intro r hr'
      have := (hB.out r hr').1
      rw [hlog] at this
      simp at this
    exact ⟨hlog, (List.append_eq_nil.1 hout).1, (List.append_eq_nil.1 hout).2⟩
  · intro hd
    refine ⟨?_, ?_⟩
    · intro u hu
      obtain ⟨k, hk, hmem⟩ := hB.log u hu
      have hk0 : k = 0 := by omega
      subst hk0
      simpa [frontier] using hmem
    · intro h0 hfin
      subst h0
      subst hd
      exact only_seed_of_fetchable f seed 1 s hr (by omega) (fetchable_depth_one f seed) hfin

/-- Witness of C2: the scenario `A -> [B]`, `B -> [A]`, `maxDepth = 1`, at the end of a
complete run: only `A` is fetched, one outcome is delivered. -/
theorem depth_bound_witness :
    ((stateAfter cycleAB.Fetch [] "A" 1 schedCycle).finished ∧
      (stateAfter cycleAB.Fetch [] "A" 1 schedCycle).fetchLog = ["A"]) ∧
    ((∀ u ∈ (stateAfter cycleAB.Fetch [] "A" 1 schedCycle).fetchLog,
        ∃ k : Nat, (k : Int) + 1 ≤ 1 ∧ u ∈ frontier cycleAB.Fetch "A" k) ∧
    ((1 : Int) ≤ 0 → (stateAfter cycleAB.Fetch [] "A" 1 schedCycle).fetchLog = [] ∧
      (stateAfter cycleAB.Fetch [] "A" 1 schedCycle).ch = [] ∧
      (stateAfter cycleAB.Fetch [] "A" 1 schedCycle).delivered = []) ∧
    ((1 : Int) = 1 → (∀ u ∈ (stateAfter cycleAB.Fetch [] "A" 1 schedCycle).fetchLog, u = "A") ∧
      (([] : List String) = [] → (stateAfter cycleAB.Fetch [] "A" 1 schedCycle).finished →
        (stateAfter cycleAB.Fetch [] "A" 1 schedCycle).fetchLog = ["A"] ∧
        (stateAfter cycleAB.Fetch [] "A" 1 schedCycle).delivered =
          [outcomeOf cycleAB.Fetch "A"]))) :=
  ⟨by decide, depth_bound cycleAB.Fetch [] "A" 1 _
    (reachable_stateAfter cycleAB.Fetch [] "A" 1 schedCycle (by decide))⟩

/-- C7, as stated, fails: it is not the case that every outcome emitted after a failed
`Fetch` has an empty body and an empty list.  With `noisyFetcher`, whose `Fetch` returns a
body and a list together with its error, the outcome for `A` carries them. -/
theorem failure_outcome_not_blank :
    ¬ (∀ (f : Fetcher) (url : String) (depth : Int) (s : State),
        Reachable f [] url depth s → ∀ r ∈ s.ch ++ s.delivered, (f r.url).err ≠ none →
          r = crawlResult.mk r.url "" [] (f r.url).err) := by
  intro h
  have h1 := h noisyFetcher "A" 1 (stateAfter noisyFetcher [] "A" 1 schedFail)
    (reachable_stateAfter noisyFetcher [] "A" 1 schedFail (by decide))
    (crawlResult.mk "A" "half a page" ["X"] (some "timeout")) (by decide) (by decide)
  exact absurd h1 (by decide)

/-- C7, amended: every outcome a worker emits is `(id, body, urls, err)` with exactly the
three results `Fetch(id)` returned, also when `err` is an error; with a `fakeFetcher`,
whose failing `Fetch` returns `("", nil, err)`, a failure outcome is
`(id, "", [], "not found: id")`. -/
theorem outcome_shape (f : Fetcher) (fetched0 : List String) (url : String) (depth : Int)
    (s : State) (hr : Reachable f fetched0 url depth s) :
    ∀ r ∈ s.ch ++ s.delivered,
      r = crawlResult.mk r.url (f r.url).body (f r.url).urls (f r.url).err ∧
      (∀ m : fakeFetcher, f = m.Fetch → r.err ≠ none →
        r = crawlResult.mk r.url "" [] (some ("not found: " ++ r.url))) := by
  intro r hmem
  have hB := reachable_invB f fetched0 url depth s hr
  have hout := (hB.out r hmem).2
  refine ⟨hout, ?_⟩
  intro m hm herr
  subst hm
  rw [hout] at herr ⊢
  simp only [outcomeOf, fakeFetcher.Fetch] at herr ⊢
  cases hl : List.lookup r.url m with
  | none => simp
  | some res => simp [hl] at herr

/-- Witness of C7 (amended): the outcome of a complete run of
`Crawl("http://nowhere/", 1, fetcher)`, an identifier `fetcher` does not know. -/
theorem outcome_shape_witness :
    (stateAfter fetcher.Fetch [] "http://nowhere/" 1 schedFail).delivered =
      [crawlResult.mk "http://nowhere/" "" [] (some "not found: http://nowhere/")] ∧
    ∀ r ∈ (stateAfter fetcher.Fetch [] "http://nowhere/" 1 schedFail).ch ++
        (stateAfter fetcher.Fetch [] "http://nowhere/" 1 schedFail).delivered,
      r = crawlResult.mk r.url (fetcher.Fetch r.url).body (fetcher.Fetch r.url).urls
        (fetcher.Fetch r.url).err ∧
      (∀ m : fakeFetcher, fetcher.Fetch = m.Fetch → r.err ≠ none →
        r = crawlResult.mk r.url "" [] (some ("not found: " ++ r.url))) :=
  ⟨by decide, outcome_shape fetcher.Fetch [] "http://nowhere/" 1 _
    (reachable_stateAfter fetcher.Fetch [] "http://nowhere/" 1 schedFail (by decide))⟩

/-- C6, as stated, fails: two `Crawl` calls executed one after the other with the same
arguments need not deliver the same outcomes.  `fetched` is a package-level variable, so
the second `Crawl("http://golang.org/", 1, fetcher)` starts with the marks the first one
left, and delivers nothing. -/
theorem second_crawl_differs :
    ¬ (∀ (f : Fetcher) (seed : String) (depth : Int) (sched1 sched2 : List Actor)
        (s1 s2 : State), 1 ≤ depth →
        exec f seed depth sched1 (initState []) = some s1 → s1.finished →
        exec f seed depth sched2 (initState s1.fetched) = some s2 → s2.finished →
        ∀ r, r ∈ s1.delivered ↔ r ∈ s2.delivered) := by
  intro h
  have h1 := h fetcher.Fetch "http://golang.org/" 1 schedOnce schedAgain
    (stateAfter fetcher.Fetch [] "http://golang.org/" 1 schedOnce)
    (stateAfter fetcher.Fetch ["http://golang.org/"] "http://golang.org/" 1 schedAgain)
    (by decide)
    (exec_stateAfter fetcher.Fetch [] "http://golang.org/" 1 schedOnce (by decide))
    (by decide)
    (by decide)
    (by decide)
    (outcomeOf fetcher.Fetch "http://golang.org/")
  exact absurd (h1.1 (by decide)) (by decide)

/-- C6, amended: the visited set is the package-level map `fetched`, which outlives a
`Crawl`.  When a `Crawl(seed, maxDepth, f)` with `maxDepth ≥ 1` has returned, the seed is
marked in `fetched` ; a second `Crawl` with the same arguments, started with the map the
first one left, never calls `Fetch` and sends and delivers no outcome. -/
theorem second_crawl_silent (f : Fetcher) (fetched0 : List String) (seed : String)
    (depth : Int) (sched1 sched2 : List Actor) (s1 s2 : State) (hd : 1 ≤ depth)
    (h1 : exec f seed depth sched1 (initState fetched0) = some s1) (hfin : s1.finished)
    (h2 : exec f seed depth sched2 (initState s1.fetched) = some s2) :
    seed ∈ s1.fetched ∧ s2.fetchLog = [] ∧ s2.ch = [] ∧ s2.delivered = [] := by
  have hm := seed_marked f fetched0 seed depth s1 ⟨sched1, h1⟩ hfin (by omega)
  have hs := silent_reachable f s1.fetched seed depth s2 hm ⟨sched2, h2⟩
  exact ⟨hm, hs.log, hs.ch, hs.delivered⟩

/-- Witness of C6 (amended): `Crawl("http://golang.org/", 1, fetcher)` run twice. -/
theorem second_crawl_silent_witness :
    ((1 : Int) ≤ 1 ∧
      exec fetcher.Fetch "http://golang.org/" 1 schedOnce (initState []) =
        some (stateAfter fetcher.Fetch [] "http://golang.org/" 1 schedOnce) ∧
      (stateAfter fetcher.Fetch [] "http://golang.org/" 1 schedOnce).finished ∧
      exec fetcher.Fetch "http://golang.org/" 1 schedAgain
          (initState (stateAfter fetcher.Fetch [] "http://golang.org/" 1 schedOnce).fetched) =
        some (stateAfter fetcher.Fetch
          (stateAfter fetcher.Fetch [] "http://golang.org/" 1 schedOnce).fetched
          "http://golang.org/" 1 schedAgain)) ∧
    ("http://golang.org/" ∈ (stateAfter fetcher.Fetch [] "http://golang.org/" 1 schedOnce).fetched ∧
      (stateAfter fetcher.Fetch
          (stateAfter fetcher.Fetch [] "http://golang.org/" 1 schedOnce).fetched
          "http://golang.org/" 1 schedAgain).fetchLog = [] ∧
      (stateAfter fetcher.Fetch
          (stateAfter fetcher.Fetch [] "http://golang.org/" 1 schedOnce).fetched
          "http://golang.org/" 1 schedAgain).ch = [] ∧
      (stateAfter fetcher.Fetch
          (stateAfter fetcher.Fetch [] "http://golang.org/" 1 schedOnce).fetched
          "http://golang.org/" 1 schedAgain).delivered = []) :=
  ⟨⟨by decide,
    exec_stateAfter fetcher.Fetch [] "http://golang.org/" 1 schedOnce (by decide),
    by decide,
    exec_stateAfter fetcher.Fetch _ "http://golang.org/" 1 schedAgain (by decide)⟩,
   second_crawl_silent fetcher.Fetch [] "http://golang.org/" 1 schedOnce schedAgain _ _
    (by decide)
    (exec_stateAfter fetcher.Fetch [] "http://golang.org/" 1 schedOnce (by decide))
    (by decide)
    (exec_stateAfter fetcher.Fetch _ "http://golang.org/" 1 schedAgain (by decide))⟩

/-- C9: seed failure.  When `Fetch` fails for the seed and `maxDepth ≥ 1`, a crawl started
with `fetched` empty never panics, never has more than the root worker (no child is
started) and never calls `Fetch` more than once; and when `Crawl` has returned, `Fetch` was
called exactly once, for the seed, and exactly one outcome was delivered, the one for the
seed, carrying the error.  Moreover the runtime never ends the process (the root is the
only worker that touches the map) and, as long as `Crawl` has not returned, some goroutine
can move, so that every run, which has at most `stepBound` steps, goes on until `Crawl`
returns. -/
theorem seed_failure (f : Fetcher) (seed : String) (maxDepth : Int) (s : State)
    (hfail : (f seed).err ≠ none) (hd : 1 ≤ maxDepth)
    (hr : Reachable f [] seed maxDepth s) :
    s.panicked = false ∧ s.pool.length ≤ 1 ∧ s.fetchLog.length ≤ 1 ∧
    (s.finished → s.fetchLog = [seed] ∧
      s.delivered = [crawlResult.mk seed (f seed).body (f seed).urls (f seed).err] ∧
      ∀ r ∈ s.delivered, r.err ≠ none) ∧
    s.fatal = false ∧
    (¬ s.finished → ∃ a, (step f seed maxDepth a s).isSome = true) := by
  have hA := reachable_invA f [] seed maxDepth s hr
  have hf := fetchable_seed_fails f seed maxDepth hd hfail
  have hpool := pool_length_le f [] seed maxDepth s hr
  have htree : spawnTree f seed maxDepth = [(seed, maxDepth)] := by
    rw [spawnTree_pos f seed maxDepth (by omega)]
    simp [hfail]
  rw [htree] at hpool
  have hsub := fetchLog_subperm f [] seed maxDepth s hr
  rw [hf] at hsub
  have hlen : s.pool.length ≤ 1 := by simpa using hpool
  have hx : s.fatal = false := by
    cases hfat : s.fatal with
    | false => rfl
    | true =>
      have := (reachable_invW f [] seed maxDepth s hr).lone hfat
      omega
  refine ⟨hA.noPanic, hlen, by simpa using hsub.length_le, ?_, hx,
    fun hn => progress f seed maxDepth s hA (reachable_invB f [] seed maxDepth s hr).ok hx hn⟩
  intro hfin
  obtain ⟨h1, h2⟩ := only_seed_of_fetchable f seed maxDepth s hr (by omega) hf hfin
  refine ⟨h1, h2, ?_⟩
  intro r hmem
  rw [h2] at hmem
  simp only [List.mem_singleton] at hmem
  subst hmem
  exact hfail

/-- Witness of C9: a complete run of `Crawl("http://nowhere/", 3, fetcher)`. -/
theorem seed_failure_witness :
    ((fetcher.Fetch "http://nowhere/").err ≠ none ∧ (1 : Int) ≤ 3 ∧
      (stateAfter fetcher.Fetch [] "http://nowhere/" 3 schedFail).finished) ∧
    ((stateAfter fetcher.Fetch [] "http://nowhere/" 3 schedFail).panicked = false ∧
     (stateAfter fetcher.Fetch [] "http://nowhere/" 3 schedFail).pool.length ≤ 1 ∧
     (stateAfter fetcher.Fetch [] "http://nowhere/" 3 schedFail).fetchLog.length ≤ 1 ∧
     ((stateAfter fetcher.Fetch [] "http://nowhere/" 3 schedFail).finished →
      (stateAfter fetcher.Fetch [] "http://nowhere/" 3 schedFail).fetchLog =
        ["http://nowhere/"] ∧
      (stateAfter fetcher.Fetch [] "http://nowhere/" 3 schedFail).delivered =
        [crawlResult.mk "http://nowhere/" (fetcher.Fetch "http://nowhere/").body
          (fetcher.Fetch "http://nowhere/").urls (fetcher.Fetch "http://nowhere/").err] ∧
      ∀ r ∈ (stateAfter fetcher.Fetch [] "http://nowhere/" 3 schedFail).delivered,
        r.err ≠ none) ∧
     (stateAfter fetcher.Fetch [] "http://nowhere/" 3 schedFail).fatal = false ∧
     (¬ (stateAfter fetcher.Fetch [] "http://nowhere/" 3 schedFail).finished →
      ∃ a, (step fetcher.Fetch "http://nowhere/" 3 a
        (stateAfter fetcher.Fetch [] "http://nowhere/" 3 schedFail)).isSome = true)) :=
  ⟨by decide, seed_failure fetcher.Fetch "http://nowhere/" 3 _ (by decide) (by decide)
    (reachable_stateAfter fetcher.Fetch [] "http://nowhere/" 3 schedFail (by decide))⟩

/-- C8 (defect in the code): `Crawl("A", 2, abc)`, started with `fetched` empty, has a
run that delivers one outcome only, the one for `A`.  The workers for `B` and `C` both
pass line 52 ; the first enters the assignment of line 55 and the second enters it before
the first has left, so the runtime ends the process (`concurrent map writes`): no
goroutine can move any more, `ch` is empty, and the outcomes for `B` and `C` are never
sent. -/
theorem abc_aborts :
    ∃ s, Reachable abc.Fetch [] "A" 2 s ∧
      (s.fatal = true ∧ ¬ s.finished ∧ s.ch = [] ∧ s.fetchLog = ["A"] ∧
        s.delivered = [crawlResult.mk "A" "a" ["B", "C"] none] ∧
        ∀ a, step abc.Fetch "A" 2 a s = none) := by
  obtain ⟨s, hr, hs⟩ := reachable_of_exec abc.Fetch [] "A" 2 schedAbort
    (fun s => decide (s.fatal = true ∧ ¬ s.finished ∧ s.ch = [] ∧ s.fetchLog = ["A"] ∧
      s.delivered = [crawlResult.mk "A" "a" ["B", "C"] none])) true (by decide)
  have h : s.fatal = true ∧ ¬ s.finished ∧ s.ch = [] ∧ s.fetchLog = ["A"] ∧
      s.delivered = [crawlResult.mk "A" "a" ["B", "C"] none] := by simpa using hs
  exact ⟨s, hr, h.1, h.2.1, h.2.2.1, h.2.2.2.1, h.2.2.2.2,
    fun a => step_none_of_fatal abc.Fetch "A" 2 a s h.1⟩

end WebCrawler
